import Mathlib

/-!
# Verification of the NYC commute-planner transit accessibility engine

Shallow embedding of the engine's core: the JS `Map`-based graph index and
multi-source budget-bounded Dijkstra search (`src/utils/routing.ts`), the
isochrone synthesis pipeline (`src/utils/isochrone.ts`,
`src/utils/distance.ts`), and the GTFS preprocessing edge pipeline
(`src/scripts/preprocess-gtfs.ts`).

JavaScript `Map` objects are modelled as association lists with
insertion-order semantics (`set` replaces in place or appends; `get` returns
the first match, which is unique). JavaScript numbers are modelled as `Int`
(times, all integral in the code) and `Rat` (distances, medians).
`travelTimeSec` on network edges is modelled as `Nat`, per the data model's
invariant that edge travel times are non-negative integers (the preprocessing
pipeline, verified below, only emits values in `[0, 3600]`).
-/

namespace NYC

/-- `Map.get`: first (unique) binding for a key in a JS-`Map`-style
association list. -/
def jget {α : Type} (m : List (String × α)) (k : String) : Option α :=
  match m with
  | [] => none
  | (k₀, v₀) :: rest => if k₀ = k then some v₀ else jget rest k

/-- `Map.set`: replace the binding in place if the key is present
(preserving insertion order), otherwise append. -/
def jset {α : Type} (m : List (String × α)) (k : String) (v : α) :
    List (String × α) :=
  match m with
  | [] => [(k, v)]
  | (k₀, v₀) :: rest =>
    if k₀ = k then (k₀, v) :: rest else (k₀, v₀) :: jset rest k v

@[simp] theorem jget_nil {α : Type} (k : String) :
    jget ([] : List (String × α)) k = none := rfl

theorem jget_cons {α : Type} (k₀ : String) (v₀ : α) (rest : List (String × α))
    (k : String) :
    jget ((k₀, v₀) :: rest) k = if k₀ = k then some v₀ else jget rest k := rfl

theorem jget_jset_self {α : Type} (m : List (String × α)) (k : String) (v : α) :
    jget (jset m k v) k = some v := by
  induction m with
  | nil => simp [jget, jset]
  | cons hd tl ih =>
    obtain ⟨k₀, v₀⟩ := hd
    by_cases h : k₀ = k <;> simp [jget, jset, h, ih]

theorem jget_jset_ne {α : Type} (m : List (String × α)) (k k' : String) (v : α)
    (h : k ≠ k') : jget (jset m k v) k' = jget m k' := by
  induction m with
  | nil => simp [jget, jset, h]
  | cons hd tl ih =>
    obtain ⟨k₀, v₀⟩ := hd
    by_cases h₀ : k₀ = k
    · subst h₀; simp [jget, jset, h]
    · simp only [jset, if_neg h₀, jget_cons]
      by_cases h₁ : k₀ = k' <;> simp [h₁, ih]

/-- Keys of a `jset` result: the written key plus the old keys. -/
theorem jset_keys_subset {α : Type} (m : List (String × α)) (k : String) (v : α) :
    ((jset m k v).map Prod.fst) ⊆ k :: m.map Prod.fst := by
  induction m with
  | nil => simp [jset]
  | cons hd tl ih =>
    obtain ⟨k₀, v₀⟩ := hd
    by_cases h : k₀ = k
    · subst h
      simp only [jset, if_pos rfl, List.map_cons]
      intro x hx
      rcases List.mem_cons.mp hx with hx | hx
      · simp [hx]
      · simp [hx]
    · simp only [jset, if_neg h, List.map_cons]
      intro x hx
      rcases List.mem_cons.mp hx with hx | hx
      · simp [hx]
      · rcases List.mem_cons.mp (ih hx) with h1 | h1
        · simp [h1]
        · simp [h1]

theorem jset_nodup_keys {α : Type} (m : List (String × α)) (k : String) (v : α)
    (h : (m.map Prod.fst).Nodup) : ((jset m k v).map Prod.fst).Nodup := by
  induction m with
  | nil => simp [jset]
  | cons hd tl ih =>
    obtain ⟨k₀, v₀⟩ := hd
    simp only [List.map_cons, List.nodup_cons] at h
    by_cases hk : k₀ = k
    · subst hk; simpa [jset] using h
    · simp only [jset, if_neg hk, List.map_cons, List.nodup_cons]
      refine ⟨fun hmem => ?_, ih h.2⟩
      rcases List.mem_cons.mp (jset_keys_subset tl k v hmem) with h1 | h1
      · exact hk h1
      · exact h.1 h1

/-- In a key-nodup association list, membership of a pair is exactly a
successful lookup. -/
theorem jget_eq_of_mem {α : Type} {m : List (String × α)} {k : String} {v : α}
    (hnd : (m.map Prod.fst).Nodup) (hm : (k, v) ∈ m) : jget m k = some v := by
  induction m with
  | nil => simp at hm
  | cons hd tl ih =>
    obtain ⟨k₀, v₀⟩ := hd
    simp only [List.map_cons, List.nodup_cons] at hnd
    rcases List.mem_cons.mp hm with h | h
    · cases h; simp [jget]
    · have hk : k₀ ≠ k := by
        intro he; subst he
        exact hnd.1 (List.mem_map.mpr ⟨(k₀, v), h, rfl⟩)
      simp [jget, hk, ih hnd.2 h]

theorem mem_of_jget_eq {α : Type} {m : List (String × α)} {k : String} {v : α}
    (h : jget m k = some v) : (k, v) ∈ m := by
  induction m with
  | nil => simp [jget] at h
  | cons hd tl ih =>
    obtain ⟨k₀, v₀⟩ := hd
    by_cases hk : k₀ = k
    · subst hk; simp [jget] at h; simp [h]
    · simp only [jget, if_neg hk] at h
      exact List.mem_cons_of_mem _ (ih h)

/-! ## Network data model (`src/types/network.ts`) -/

/-- A subway station (parent station from GTFS), per `types/network.ts`.
Coordinates are modelled as rationals. -/
structure Station where
  id : String
  name : String
  lat : Rat
  lon : Rat
  accessible : Bool
  routesServed : List String
deriving DecidableEq

/-- A directed travel edge between stations, per `types/network.ts`.
`travelTimeSec` is a non-negative integer per the data-model invariant
(preprocessing only emits medians of values in `[0, 3600]`). -/
structure Edge where
  fromId : String
  toId : String
  travelTimeSec : Nat
  routeId : String
deriving DecidableEq

/-- The persisted network artifact, per `types/network.ts`. -/
structure ProcessedNetwork where
  stations : List Station
  edges : List Edge
deriving DecidableEq

/-- A start station for routing, per `types/isochrone.ts`:
`remainingTimeSec` is the time left for transit after walking. -/
structure StartStation where
  stationId : String
  remainingTimeSec : Int
deriving DecidableEq

/-! ## Graph index and reachability search (`src/utils/routing.ts`) -/

/-- Adjacency-list graph: JS `Map` from station id to outgoing edges. -/
abbrev Graph : Type := List (String × List Edge)

/-- `buildGraph` from `routing.ts`: initialize every station id with an
empty edge array, then push each edge onto its source station's array
(edges whose source is not a known station are dropped by the
`if (edges)` guard). -/
def buildGraph (network : ProcessedNetwork) : Graph :=
  let g : Graph := network.stations.foldl (fun g s => jset g s.id []) []
  network.edges.foldl
    (fun g e =>
      match jget g e.fromId with
      | some edges => jset g e.fromId (edges ++ [e])
      | none => g)
    g

/-- Stable ascending insertion into a queue sorted by time.  Strict
comparison keeps an earlier-pushed entry before later ties. -/
def insertSorted (x : Nat × String) : List (Nat × String) → List (Nat × String)
  | [] => [x]
  | y :: ys => if y.1 < x.1 then y :: insertSorted x ys else x :: y :: ys

/-- `queue.sort((a, b) => a[0] - b[0])` from `routing.ts`: JS `Array.sort`
is a stable ascending sort, which is extensionally the stable insertion
sort. -/
def sortQueue (q : List (Nat × String)) : List (Nat × String) :=
  q.foldr insertSorted []

/-- One step of the start-station seeding loop of `findReachableStations`:
a station with non-negative remaining time gets distance 0 and a queue
entry. -/
def seedStep (dq : List (String × Nat) × List (Nat × String))
    (s : StartStation) : List (String × Nat) × List (Nat × String) :=
  if 0 ≤ s.remainingTimeSec then
    (jset dq.1 s.stationId 0, dq.2 ++ [(0, s.stationId)])
  else dq

/-- The start-station seeding loop of `findReachableStations`. -/
def seedStarts (startStations : List StartStation) :
    List (String × Nat) × List (Nat × String) :=
  startStations.foldl seedStep ([], [])

/-- One step of the inner edge-relaxation loop of `findReachableStations`:
if the new time is within the limit and strictly improves the best known
time, record it and enqueue it (re-sorting the queue). -/
def relaxStep (maxTimeSec : Int) (currentTime : Nat)
    (dq : List (String × Nat) × List (Nat × String)) (e : Edge) :
    List (String × Nat) × List (Nat × String) :=
  let newTime := currentTime + e.travelTimeSec
  if (newTime : Int) ≤ maxTimeSec then
    match jget dq.1 e.toId with
    | some existingTime =>
      if newTime < existingTime then
        (jset dq.1 e.toId newTime, sortQueue (dq.2 ++ [(newTime, e.toId)]))
      else dq
    | none =>
      (jset dq.1 e.toId newTime, sortQueue (dq.2 ++ [(newTime, e.toId)]))
  else dq

/-- The inner edge-relaxation loop of `findReachableStations` over all
outgoing edges of the popped station. -/
def relaxEdges (maxTimeSec : Int) (currentTime : Nat) (edges : List Edge)
    (dq : List (String × Nat) × List (Nat × String)) :
    List (String × Nat) × List (Nat × String) :=
  edges.foldl (relaxStep maxTimeSec currentTime) dq

theorem relaxEdges_cons (maxTimeSec : Int) (currentTime : Nat) (e : Edge)
    (es : List Edge) (dq : List (String × Nat) × List (Nat × String)) :
    relaxEdges maxTimeSec currentTime (e :: es) dq =
      relaxEdges maxTimeSec currentTime es
        (relaxStep maxTimeSec currentTime dq e) := rfl

/-- The main `while (queue.length > 0)` loop of `findReachableStations`,
with explicit fuel (the source loop terminates because every queue push
strictly improves a bounded distance; `dijkstraLoop_adequate` below proves
the fuel used by `findReachableStations` suffices, so the `none` branch is
unreachable there).  Pops the minimum entry, skips it if stale
(`currentTime > bestTime`), and otherwise expands its edges when its time
is within the limit. -/
def dijkstraLoop (graph : Graph) (maxTimeSec : Int) :
    Nat → List (String × Nat) → List (Nat × String) →
    Option (List (String × Nat))
  | _, dist, [] => some dist
  | 0, _, _ :: _ => none
  | fuel + 1, dist, (currentTime, currentId) :: rest =>
    match jget dist currentId with
    | some bestTime =>
      if bestTime < currentTime then
        dijkstraLoop graph maxTimeSec fuel dist rest
      else if (currentTime : Int) ≤ maxTimeSec then
        let dq := relaxEdges maxTimeSec currentTime
          ((jget graph currentId).getD []) (dist, rest)
        dijkstraLoop graph maxTimeSec fuel dq.1 dq.2
      else
        dijkstraLoop graph maxTimeSec fuel dist rest
    | none =>
      if (currentTime : Int) ≤ maxTimeSec then
        let dq := relaxEdges maxTimeSec currentTime
          ((jget graph currentId).getD []) (dist, rest)
        dijkstraLoop graph maxTimeSec fuel dq.1 dq.2
      else
        dijkstraLoop graph maxTimeSec fuel dist rest

/-- All station ids the `dist` map can ever mention: seeded start ids and
edge targets reachable through the adjacency lists. -/
def keyUniverse (startStations : List StartStation) (graph : Graph) :
    List String :=
  startStations.map (·.stationId) ++
    graph.foldr (fun p acc => p.2.map (·.toId) ++ acc) []

/-- Fuel sufficient for the search loop: every queue push strictly
decreases some recorded distance (all of which lie in
`[0, max maxTimeSec 0]` over at most `|keyUniverse|` keys), so the number
of loop iterations is bounded by the initial queue length plus total
possible improvement. -/
def fuelBound (startStations : List StartStation) (maxTimeSec : Int)
    (graph : Graph) : Nat :=
  (maxTimeSec.toNat + 1) * (keyUniverse startStations graph).dedup.length +
    (seedStarts startStations).2.length + 1

/-- The final result-building loop of `findReachableStations`: keep only
entries within the time limit. -/
def filterWithin (maxTimeSec : Int) (dist : List (String × Nat)) :
    List (String × Nat) :=
  dist.foldl
    (fun result kv =>
      if (kv.2 : Int) ≤ maxTimeSec then jset result kv.1 kv.2 else result)
    []

/-- `findReachableStations` from `routing.ts`: multi-source, budget-bounded
Dijkstra over the adjacency list, returning the map of stations reachable
within `maxTimeSec` with their minimum times. -/
def findReachableStations (startStations : List StartStation)
    (maxTimeSec : Int) (graph : Graph) : List (String × Nat) :=
  let dq := seedStarts startStations
  match dijkstraLoop graph maxTimeSec
      (fuelBound startStations maxTimeSec graph) dq.1 (sortQueue dq.2) with
  | some dist => filterWithin maxTimeSec dist
  | none => []

/-! ## Basic lemmas about sorting and map updates -/

theorem mem_insertSorted (x y : Nat × String) (l : List (Nat × String)) :
    x ∈ insertSorted y l ↔ x = y ∨ x ∈ l := by
  induction l with
  | nil => simp [insertSorted]
  | cons hd tl ih =>
    by_cases h : hd.1 < y.1
    · simp only [insertSorted, if_pos h, List.mem_cons, ih]
      tauto
    · simp only [insertSorted, if_neg h, List.mem_cons]

theorem length_insertSorted (y : Nat × String) (l : List (Nat × String)) :
    (insertSorted y l).length = l.length + 1 := by
  induction l with
  | nil => simp [insertSorted]
  | cons hd tl ih =>
    by_cases h : hd.1 < y.1 <;> simp [insertSorted, h, ih]

theorem mem_sortQueue (x : Nat × String) (q : List (Nat × String)) :
    x ∈ sortQueue q ↔ x ∈ q := by
  induction q with
  | nil => simp [sortQueue]
  | cons hd tl ih =>
    simp only [sortQueue, List.foldr_cons, List.mem_cons]
    rw [mem_insertSorted]
    simp only [sortQueue] at ih
    rw [ih]

theorem length_sortQueue (q : List (Nat × String)) :
    (sortQueue q).length = q.length := by
  induction q with
  | nil => simp [sortQueue]
  | cons hd tl ih =>
    simp only [sortQueue, List.foldr_cons, length_insertSorted]
    simp only [sortQueue] at ih
    simp [ih]

theorem jset_mem {α : Type} {m : List (String × α)} {k : String} {v : α}
    {x : String × α} (hx : x ∈ jset m k v) : x ∈ m ∨ x = (k, v) := by
  induction m with
  | nil => simp [jset] at hx; simp [hx]
  | cons hd tl ih =>
    obtain ⟨k₀, v₀⟩ := hd
    by_cases h : k₀ = k
    · subst h
      simp only [jset, if_pos rfl] at hx
      rcases List.mem_cons.mp hx with h1 | h1
      · exact Or.inr h1
      · exact Or.inl (List.mem_cons_of_mem _ h1)
    · simp only [jset, if_neg h] at hx
      rcases List.mem_cons.mp hx with h1 | h1
      · exact Or.inl (h1 ▸ List.mem_cons_self _ _)
      · rcases ih h1 with h2 | h2
        · exact Or.inl (List.mem_cons_of_mem _ h2)
        · exact Or.inr h2

/-! ## Relaxation-step case analysis -/

/-- `relaxStep` either leaves the state unchanged (and then, if the
candidate time was within the limit, an at-least-as-good time was already
recorded), or it records the candidate time — a strict improvement within
the limit — and enqueues it. -/
theorem relaxStep_cases (t : Int) (c : Nat)
    (dq : List (String × Nat) × List (Nat × String)) (e : Edge) :
    (relaxStep t c dq e = dq ∧
      (((c + e.travelTimeSec : Nat) : Int) ≤ t →
        ∃ ex, jget dq.1 e.toId = some ex ∧ ex ≤ c + e.travelTimeSec)) ∨
    (relaxStep t c dq e =
        (jset dq.1 e.toId (c + e.travelTimeSec),
          sortQueue (dq.2 ++ [(c + e.travelTimeSec, e.toId)])) ∧
      ((c + e.travelTimeSec : Nat) : Int) ≤ t ∧
      ∀ old, jget dq.1 e.toId = some old → c + e.travelTimeSec < old) := by
  by_cases hle : ((c + e.travelTimeSec : Nat) : Int) ≤ t
  · cases hjg : jget dq.1 e.toId with
    | none =>
      refine Or.inr ⟨?_, hle, ?_⟩
      · simp only [relaxStep]
        rw [if_pos hle, hjg]
      · intro old hold; cases hold
    | some ex =>
      by_cases hlt : c + e.travelTimeSec < ex
      · refine Or.inr ⟨?_, hle, ?_⟩
        · simp only [relaxStep]
          rw [if_pos hle, hjg]
          exact if_pos hlt
        · intro old hold
          exact (Option.some_inj.mp hold) ▸ hlt
      · refine Or.inl ⟨?_, fun _ => ⟨ex, rfl, Nat.le_of_not_lt hlt⟩⟩
        simp only [relaxStep]
        rw [if_pos hle, hjg]
        exact if_neg hlt
  · refine Or.inl ⟨?_, fun h => absurd h hle⟩
    simp only [relaxStep]
    rw [if_neg hle]

/-- Distances never increase across a relaxation step. -/
theorem relaxStep_antitone (t : Int) (c : Nat)
    (dq : List (String × Nat) × List (Nat × String)) (e : Edge) (k : String)
    (old : Nat) (h : jget dq.1 k = some old) :
    ∃ v, jget (relaxStep t c dq e).1 k = some v ∧ v ≤ old := by
  rcases relaxStep_cases t c dq e with ⟨heq, _⟩ | ⟨heq, _, himp⟩
  · exact ⟨old, by rw [heq]; exact h, le_rfl⟩
  · by_cases hk : e.toId = k
    · subst hk
      exact ⟨c + e.travelTimeSec, by rw [heq]; exact jget_jset_self _ _ _,
        Nat.le_of_lt (himp old h)⟩
    · exact ⟨old, by rw [heq]; exact (jget_jset_ne _ _ _ _ hk).trans h, le_rfl⟩

/-- Distances never increase across the whole relaxation loop. -/
theorem relaxEdges_antitone (t : Int) (c : Nat) (edges : List Edge)
    (dq : List (String × Nat) × List (Nat × String)) (k : String)
    (old : Nat) (h : jget dq.1 k = some old) :
    ∃ v, jget (relaxEdges t c edges dq).1 k = some v ∧ v ≤ old := by
  induction edges generalizing dq old with
  | nil => exact ⟨old, h, le_rfl⟩
  | cons e es ih =>
    obtain ⟨v, hv, hvle⟩ := relaxStep_antitone t c dq e k old h
    obtain ⟨w, hw, hwle⟩ := ih _ _ hv
    exact ⟨w, hw, hwle.trans hvle⟩

/-- Old queue entries survive a relaxation step. -/
theorem relaxStep_queue_mono (t : Int) (c : Nat)
    (dq : List (String × Nat) × List (Nat × String)) (e : Edge)
    (x : Nat × String) (hx : x ∈ dq.2) : x ∈ (relaxStep t c dq e).2 := by
  rcases relaxStep_cases t c dq e with ⟨heq, _⟩ | ⟨heq, _, _⟩
  · rw [heq]; exact hx
  · rw [heq]
    exact (mem_sortQueue _ _).mpr (List.mem_append_left _ hx)

/-- Old queue entries survive the whole relaxation loop. -/
theorem relaxEdges_queue_mono (t : Int) (c : Nat) (edges : List Edge)
    (dq : List (String × Nat) × List (Nat × String))
    (x : Nat × String) (hx : x ∈ dq.2) : x ∈ (relaxEdges t c edges dq).2 := by
  induction edges generalizing dq with
  | nil => exact hx
  | cons e es ih => exact ih _ (relaxStep_queue_mono t c dq e x hx)

/-- Any queue entry after a relaxation step is an old entry or the newly
pushed in-budget candidate. -/
theorem relaxStep_queue_new (t : Int) (c : Nat)
    (dq : List (String × Nat) × List (Nat × String)) (e : Edge)
    (x : Nat × String) (hx : x ∈ (relaxStep t c dq e).2) :
    x ∈ dq.2 ∨ (x = (c + e.travelTimeSec, e.toId) ∧
      ((c + e.travelTimeSec : Nat) : Int) ≤ t) := by
  rcases relaxStep_cases t c dq e with ⟨heq, _⟩ | ⟨heq, hle, _⟩
  · rw [heq] at hx; exact Or.inl hx
  · rw [heq] at hx
    rcases List.mem_append.mp ((mem_sortQueue _ _).mp hx) with h | h
    · exact Or.inl h
    · exact Or.inr ⟨List.mem_singleton.mp h, hle⟩

/-- Any queue entry after the whole relaxation loop is an old entry or an
in-budget candidate through one of the relaxed edges. -/
theorem relaxEdges_queue_new (t : Int) (c : Nat) (edges : List Edge)
    (dq : List (String × Nat) × List (Nat × String))
    (x : Nat × String) (hx : x ∈ (relaxEdges t c edges dq).2) :
    x ∈ dq.2 ∨ ∃ e ∈ edges, x = (c + e.travelTimeSec, e.toId) ∧
      ((c + e.travelTimeSec : Nat) : Int) ≤ t := by
  induction edges generalizing dq with
  | nil => exact Or.inl hx
  | cons e es ih =>
    rcases ih _ hx with h | ⟨e', he', hxe⟩
    · rcases relaxStep_queue_new t c dq e x h with h1 | h1
      · exact Or.inl h1
      · exact Or.inr ⟨e, List.mem_cons_self _ _, h1⟩
    · exact Or.inr ⟨e', List.mem_cons_of_mem _ he', hxe⟩

/-- After a relaxation step for an in-budget edge, the edge target holds a
time no worse than the candidate. -/
theorem relaxStep_closure (t : Int) (c : Nat)
    (dq : List (String × Nat) × List (Nat × String)) (e : Edge)
    (hle : ((c + e.travelTimeSec : Nat) : Int) ≤ t) :
    ∃ w, jget (relaxStep t c dq e).1 e.toId = some w ∧
      w ≤ c + e.travelTimeSec := by
  rcases relaxStep_cases t c dq e with ⟨heq, himp⟩ | ⟨heq, _, _⟩
  · obtain ⟨ex, hex, hexle⟩ := himp hle
    exact ⟨ex, by rw [heq]; exact hex, hexle⟩
  · exact ⟨c + e.travelTimeSec, by rw [heq]; exact jget_jset_self _ _ _, le_rfl⟩

/-- After the whole relaxation loop, every in-budget edge's target holds a
time no worse than its candidate. -/
theorem relaxEdges_closure (t : Int) (c : Nat) (edges : List Edge)
    (dq : List (String × Nat) × List (Nat × String)) (e : Edge)
    (he : e ∈ edges) (hle : ((c + e.travelTimeSec : Nat) : Int) ≤ t) :
    ∃ w, jget (relaxEdges t c edges dq).1 e.toId = some w ∧
      w ≤ c + e.travelTimeSec := by
  induction edges generalizing dq with
  | nil => cases he
  | cons e₀ es ih =>
    rcases List.mem_cons.mp he with h | h
    · subst h
      obtain ⟨w, hw, hwle⟩ := relaxStep_closure t c dq e hle
      obtain ⟨w', hw', hw'le⟩ :=
        relaxEdges_antitone t c es (relaxStep t c dq e) e.toId w hw
      exact ⟨w', hw', hw'le.trans hwle⟩
    · exact ih (relaxStep t c dq e₀) h

/-- Every recorded distance after the relaxation loop is an old one, or an
in-budget strict improvement through one of the relaxed edges (which is
also enqueued). -/
theorem relaxEdges_new_or_old (t : Int) (c : Nat) (edges : List Edge)
    (dq : List (String × Nat) × List (Nat × String)) (k : String) (v : Nat)
    (h : jget (relaxEdges t c edges dq).1 k = some v) :
    jget dq.1 k = some v ∨
      ∃ e ∈ edges, e.toId = k ∧ v = c + e.travelTimeSec ∧
        ((v : Nat) : Int) ≤ t ∧ (v, k) ∈ (relaxEdges t c edges dq).2 ∧
        ∀ old, jget dq.1 k = some old → v < old := by
  induction edges generalizing dq with
  | nil => exact Or.inl h
  | cons e es ih =>
    rcases ih (relaxStep t c dq e) h with h1 | ⟨e', he', hek, hev, hel, hq, holds⟩
    · rcases relaxStep_cases t c dq e with ⟨heq, _⟩ | ⟨heq, hle, himp⟩
      · rw [heq] at h1; exact Or.inl h1
      · by_cases hk : e.toId = k
        · subst hk
          rw [heq, jget_jset_self] at h1
          refine Or.inr ⟨e, List.mem_cons_self _ _, rfl,
            (Option.some_inj.mp h1).symm, ?_, ?_, ?_⟩
          · rw [← Option.some_inj.mp h1]; exact hle
          · refine relaxEdges_queue_mono t c es _ _ ?_
            rw [heq, ← Option.some_inj.mp h1]
            exact (mem_sortQueue _ _).mpr
              (List.mem_append_right _ (List.mem_singleton.mpr rfl))
          · intro old hold
            rw [← Option.some_inj.mp h1]
            exact himp old hold
        · rw [heq, jget_jset_ne _ _ _ _ hk] at h1
          exact Or.inl h1
    · refine Or.inr ⟨e', List.mem_cons_of_mem _ he', hek, hev, hel, hq, ?_⟩
      intro old hold
      obtain ⟨u, hu, hule⟩ := relaxStep_antitone t c dq e k old hold
      exact Nat.lt_of_lt_of_le (holds u hu) hule

/-- The relaxation loop preserves key-uniqueness of the distance map. -/
theorem relaxEdges_nodup (t : Int) (c : Nat) (edges : List Edge)
    (dq : List (String × Nat) × List (Nat × String))
    (h : (dq.1.map Prod.fst).Nodup) :
    ((relaxEdges t c edges dq).1.map Prod.fst).Nodup := by
  induction edges generalizing dq with
  | nil => exact h
  | cons e es ih =>
    refine ih _ ?_
    rcases relaxStep_cases t c dq e with ⟨heq, _⟩ | ⟨heq, _, _⟩
    · rw [heq]; exact h
    · rw [heq]; exact jset_nodup_keys _ _ _ h

/-- Every binding after the relaxation loop is an old binding or an
in-budget candidate through one of the relaxed edges. -/
theorem relaxEdges_mem_val (t : Int) (c : Nat) (edges : List Edge)
    (dq : List (String × Nat) × List (Nat × String))
    (kv : String × Nat) (h : kv ∈ (relaxEdges t c edges dq).1) :
    kv ∈ dq.1 ∨ ∃ e ∈ edges, kv = (e.toId, c + e.travelTimeSec) ∧
      ((c + e.travelTimeSec : Nat) : Int) ≤ t := by
  induction edges generalizing dq with
  | nil => exact Or.inl h
  | cons e es ih =>
    rcases ih (relaxStep t c dq e) h with h1 | ⟨e', he', hkv⟩
    · rcases relaxStep_cases t c dq e with ⟨heq, _⟩ | ⟨heq, hle, _⟩
      · rw [heq] at h1; exact Or.inl h1
      · rw [heq] at h1
        rcases jset_mem h1 with h2 | h2
        · exact Or.inl h2
        · exact Or.inr ⟨e, List.mem_cons_self _ _, h2, hle⟩
    · exact Or.inr ⟨e', List.mem_cons_of_mem _ he', hkv⟩

/-! ## Termination potential

Every queue push strictly decreases a recorded distance (or creates one),
so the potential `phi` strictly increases with every push while staying
bounded; this bounds the total number of loop iterations. -/

/-- Termination potential of a distance map: total recorded improvement
headroom, `T` being the largest possible recorded distance. -/
def phi (T : Nat) (dist : List (String × Nat)) : Nat :=
  (dist.map (fun kv => T + 1 - kv.2)).sum

theorem phi_jset_none (T : Nat) (m : List (String × Nat)) (k : String)
    (v : Nat) (h : jget m k = none) :
    phi T (jset m k v) = phi T m + (T + 1 - v) := by
  induction m with
  | nil => simp [phi, jset]
  | cons hd tl ih =>
    obtain ⟨k₀, v₀⟩ := hd
    by_cases hk : k₀ = k
    · simp [jget, hk] at h
    · simp only [jget, if_neg hk] at h
      simp only [jset, if_neg hk, phi, List.map_cons, List.sum_cons]
      have := ih h
      simp only [phi] at this
      omega

theorem phi_jset_some (T : Nat) (m : List (String × Nat)) (k : String)
    (v old : Nat) (h : jget m k = some old) (hlt : v ≤ old) (hT : old ≤ T) :
    phi T (jset m k v) = phi T m + (old - v) := by
  induction m with
  | nil => simp [jget] at h
  | cons hd tl ih =>
    obtain ⟨k₀, v₀⟩ := hd
    by_cases hk : k₀ = k
    · simp only [jget, if_pos hk] at h
      have hv₀ : v₀ = old := Option.some_inj.mp h
      subst hv₀
      simp only [jset, if_pos hk, phi, List.map_cons, List.sum_cons]
      omega
    · simp only [jget, if_neg hk] at h
      simp only [jset, if_neg hk, phi, List.map_cons, List.sum_cons]
      have := ih h
      simp only [phi] at this
      omega

theorem phi_le_length (T : Nat) (dist : List (String × Nat)) :
    phi T dist ≤ dist.length * (T + 1) := by
  induction dist with
  | nil => simp [phi]
  | cons hd tl ih =>
    simp only [phi, List.map_cons, List.sum_cons, List.length_cons]
    simp only [phi] at ih
    have : T + 1 - hd.2 ≤ T + 1 := Nat.sub_le _ _
    calc T + 1 - hd.2 + (tl.map (fun kv => T + 1 - kv.2)).sum
        ≤ (T + 1) + tl.length * (T + 1) := Nat.add_le_add this ih
      _ = (tl.length + 1) * (T + 1) := by ring

/-- A relaxation step can only grow the potential, by at least as much as
it grows the queue (each push strictly improves a bounded distance). -/
theorem relaxStep_measure (t : Int) (T c : Nat)
    (dq : List (String × Nat) × List (Nat × String)) (e : Edge)
    (hT : ∀ v : Nat, (v : Int) ≤ t → v ≤ T)
    (hvals : ∀ kv ∈ dq.1, kv.2 ≤ T) :
    phi T dq.1 + (relaxStep t c dq e).2.length ≤
      phi T (relaxStep t c dq e).1 + dq.2.length := by
  rcases relaxStep_cases t c dq e with ⟨heq, _⟩ | ⟨heq, hle, himp⟩
  · rw [heq]
  · rw [heq]
    simp only [length_sortQueue, List.length_append, List.length_singleton]
    cases hjg : jget dq.1 e.toId with
    | none =>
      rw [phi_jset_none T dq.1 e.toId _ hjg]
      have h1 : c + e.travelTimeSec ≤ T := hT _ hle
      omega
    | some old =>
      have hlt := himp old hjg
      have hold : old ≤ T := hvals (e.toId, old) (mem_of_jget_eq hjg)
      rw [phi_jset_some T dq.1 e.toId _ old hjg (Nat.le_of_lt hlt) hold]
      omega

/-- A relaxation step keeps all recorded distances within the bound. -/
theorem relaxStep_vals (t : Int) (T c : Nat)
    (dq : List (String × Nat) × List (Nat × String)) (e : Edge)
    (hT : ∀ v : Nat, (v : Int) ≤ t → v ≤ T)
    (hvals : ∀ kv ∈ dq.1, kv.2 ≤ T) :
    ∀ kv ∈ (relaxStep t c dq e).1, kv.2 ≤ T := by
  intro kv hkv
  rcases relaxStep_cases t c dq e with ⟨heq, _⟩ | ⟨heq, hle, _⟩
  · rw [heq] at hkv; exact hvals kv hkv
  · rw [heq] at hkv
    rcases jset_mem hkv with h | h
    · exact hvals kv h
    · rw [h]; exact hT _ hle

/-- The relaxation loop can only grow the potential, by at least as much
as it grows the queue, and keeps distances bounded. -/
theorem relaxEdges_measure (t : Int) (T c : Nat) (edges : List Edge)
    (dq : List (String × Nat) × List (Nat × String))
    (hT : ∀ v : Nat, (v : Int) ≤ t → v ≤ T)
    (hvals : ∀ kv ∈ dq.1, kv.2 ≤ T) :
    phi T dq.1 + (relaxEdges t c edges dq).2.length ≤
        phi T (relaxEdges t c edges dq).1 + dq.2.length ∧
      ∀ kv ∈ (relaxEdges t c edges dq).1, kv.2 ≤ T := by
  induction edges generalizing dq with
  | nil => exact ⟨le_rfl, hvals⟩
  | cons e es ih =>
    have hstep := relaxStep_measure t T c dq e hT hvals
    have hstepv := relaxStep_vals t T c dq e hT hvals
    obtain ⟨h1, h2⟩ := ih (relaxStep t c dq e) hstepv
    rw [relaxEdges_cons]
    exact ⟨by omega, h2⟩

/-! ## The main loop: invariant preservation and termination adequacy -/

/-- Any property preserved by the three loop branches (stale-entry skip,
over-budget skip, and in-budget expansion) holds of the final distance map
with an empty queue. -/
theorem dijkstraLoop_invariant (graph : Graph) (t : Int)
    (P : List (String × Nat) → List (Nat × String) → Prop)
    (hstale : ∀ (dist : List (String × Nat)) (ct : Nat) (cid : String)
      (rest : List (Nat × String)) (best : Nat), jget dist cid = some best →
      best < ct → P dist ((ct, cid) :: rest) → P dist rest)
    (hskip : ∀ (dist : List (String × Nat)) (ct : Nat) (cid : String)
      (rest : List (Nat × String)), ¬ ((ct : Int) ≤ t) →
      P dist ((ct, cid) :: rest) → P dist rest)
    (hexpand : ∀ (dist : List (String × Nat)) (ct : Nat) (cid : String)
      (rest : List (Nat × String)),
      (∀ best, jget dist cid = some best → ct ≤ best) → ((ct : Int) ≤ t) →
      P dist ((ct, cid) :: rest) →
      P (relaxEdges t ct ((jget graph cid).getD []) (dist, rest)).1
        (relaxEdges t ct ((jget graph cid).getD []) (dist, rest)).2) :
    ∀ fuel dist queue dist₁, P dist queue →
      dijkstraLoop graph t fuel dist queue = some dist₁ → P dist₁ [] := by
  intro fuel
  induction fuel with
  | zero =>
    intro dist queue dist₁ hP hrun
    cases queue with
    | nil =>
      simp only [dijkstraLoop] at hrun
      cases Option.some_inj.mp hrun
      exact hP
    | cons hd tl =>
      obtain ⟨ct, cid⟩ := hd
      simp only [dijkstraLoop] at hrun
      cases hrun
  | succ fuel ih =>
    intro dist queue dist₁ hP hrun
    cases queue with
    | nil =>
      simp only [dijkstraLoop] at hrun
      cases Option.some_inj.mp hrun
      exact hP
    | cons hd tl =>
      obtain ⟨ct, cid⟩ := hd
      simp only [dijkstraLoop] at hrun
      rcases hjg : jget dist cid with _ | best
      · simp only [hjg] at hrun
        by_cases hct : (ct : Int) ≤ t
        · rw [if_pos hct] at hrun
          refine ih _ _ _ (hexpand dist ct cid tl ?_ hct hP) hrun
          intro b hb; rw [hjg] at hb; cases hb
        · rw [if_neg hct] at hrun
          exact ih _ _ _ (hskip dist ct cid tl hct hP) hrun
      · simp only [hjg] at hrun
        by_cases hlt : best < ct
        · rw [if_pos hlt] at hrun
          exact ih _ _ _ (hstale dist ct cid tl best hjg hlt hP) hrun
        · rw [if_neg hlt] at hrun
          by_cases hct : (ct : Int) ≤ t
          · rw [if_pos hct] at hrun
            refine ih _ _ _ (hexpand dist ct cid tl ?_ hct hP) hrun
            intro b hb; rw [hjg] at hb
            cases Option.some_inj.mp hb
            exact Nat.le_of_not_lt hlt
          · rw [if_neg hct] at hrun
            exact ih _ _ _ (hskip dist ct cid tl hct hP) hrun

/-- A key-unique list of strings drawn from `U` is no longer than
`U.dedup`. -/
theorem nodup_subset_length (l U : List String) (hnd : l.Nodup)
    (hsub : ∀ k ∈ l, k ∈ U) : l.length ≤ U.dedup.length := by
  have h1 : l.toFinset.card = l.length := List.toFinset_card_of_nodup hnd
  have h2 : U.dedup.toFinset.card = U.dedup.length :=
    List.toFinset_card_of_nodup (List.nodup_dedup U)
  have h3 : l.toFinset ⊆ U.dedup.toFinset := by
    intro x hx
    rw [List.mem_toFinset] at hx ⊢
    rw [List.mem_dedup]
    exact hsub x hx
  calc l.length = l.toFinset.card := h1.symm
    _ ≤ U.dedup.toFinset.card := Finset.card_le_card h3
    _ = U.dedup.length := h2

/-- Termination adequacy: with fuel exceeding the queue length plus the
total possible potential increase, the loop drains its queue and returns a
final distance map. -/
theorem dijkstraLoop_adequate (graph : Graph) (t : Int) (T : Nat)
    (hT : ∀ v : Nat, (v : Int) ≤ t → v ≤ T)
    (U : List String)
    (hU : ∀ cid es e, jget graph cid = some es → e ∈ es → e.toId ∈ U) :
    ∀ fuel dist queue,
      (∀ kv ∈ dist, kv.2 ≤ T) →
      ((dist.map Prod.fst).Nodup) →
      (∀ k ∈ dist.map Prod.fst, k ∈ U) →
      U.dedup.length * (T + 1) + queue.length < phi T dist + fuel →
      ∃ d, dijkstraLoop graph t fuel dist queue = some d := by
  intro fuel
  induction fuel with
  | zero =>
    intro dist queue hvals hnd hkeys hm
    cases queue with
    | nil => exact ⟨dist, rfl⟩
    | cons hd tl =>
      exfalso
      have h1 : phi T dist ≤ dist.length * (T + 1) := phi_le_length T dist
      have h2 : dist.length ≤ U.dedup.length := by
        have := nodup_subset_length (dist.map Prod.fst) U hnd hkeys
        simpa using this
      have h3 : dist.length * (T + 1) ≤ U.dedup.length * (T + 1) :=
        Nat.mul_le_mul_right _ h2
      simp only [List.length_cons] at hm
      omega
  | succ fuel ih =>
    intro dist queue hvals hnd hkeys hm
    cases queue with
    | nil => exact ⟨dist, rfl⟩
    | cons hd tl =>
      obtain ⟨ct, cid⟩ := hd
      simp only [List.length_cons] at hm
      have hrec_same : ∃ d, dijkstraLoop graph t fuel dist tl = some d :=
        ih dist tl hvals hnd hkeys (by omega)
      have hrec_expand :
          ∃ d, dijkstraLoop graph t fuel
            (relaxEdges t ct ((jget graph cid).getD []) (dist, tl)).1
            (relaxEdges t ct ((jget graph cid).getD []) (dist, tl)).2 =
            some d := by
        have hmeas := relaxEdges_measure t T ct
          ((jget graph cid).getD []) (dist, tl) hT hvals
        refine ih _ _ hmeas.2
          (relaxEdges_nodup t ct _ (dist, tl) hnd) ?_ ?_
        · intro k hk
          obtain ⟨kv, hkv, hkvk⟩ := List.mem_map.mp hk
          rcases relaxEdges_mem_val t ct ((jget graph cid).getD [])
              (dist, tl) kv hkv with h | ⟨e, he, hkv2, _⟩
          · exact hkeys k (List.mem_map.mpr ⟨kv, h, hkvk⟩)
          · cases hadj : jget graph cid with
            | none =>
              rw [hadj] at he
              simp at he
            | some es₀ =>
              have he₀ : e ∈ es₀ := by
                rw [hadj] at he
                simpa using he
              have hke : k = e.toId := by rw [← hkvk, hkv2]
              rw [hke]
              exact hU cid es₀ e hadj he₀
        · have h1 := hmeas.1
          simp only at h1 ⊢
          omega
      rcases hjg : jget dist cid with _ | best
      · by_cases hct : (ct : Int) ≤ t
        · obtain ⟨d, hd⟩ := hrec_expand
          refine ⟨d, ?_⟩
          simp only [dijkstraLoop, hjg, hct, if_true]
          exact hd
        · obtain ⟨d, hd⟩ := hrec_same
          refine ⟨d, ?_⟩
          simp only [dijkstraLoop, hjg, hct, if_false]
          exact hd
      · by_cases hlt : best < ct
        · obtain ⟨d, hd⟩ := hrec_same
          refine ⟨d, ?_⟩
          simp only [dijkstraLoop, hjg, hlt, if_true]
          exact hd
        · by_cases hct : (ct : Int) ≤ t
          · obtain ⟨d, hd⟩ := hrec_expand
            refine ⟨d, ?_⟩
            simp only [dijkstraLoop, hjg, hlt, hct, if_true, if_false]
            exact hd
          · obtain ⟨d, hd⟩ := hrec_same
            refine ⟨d, ?_⟩
            simp only [dijkstraLoop, hjg, hlt, hct, if_false]
            exact hd

/-! ## Seeding-phase lemmas -/

theorem jget_isSome_of_mem_keys {α : Type} {m : List (String × α)}
    {k : String} (h : k ∈ m.map Prod.fst) : (jget m k).isSome := by
  induction m with
  | nil => simp at h
  | cons hd tl ih =>
    obtain ⟨k₀, v₀⟩ := hd
    by_cases hk : k₀ = k
    · simp [jget, hk]
    · simp only [List.map_cons, List.mem_cons] at h
      rcases h with h | h
    -- `h : k = k₀` contradicts `hk` (as `k₀ ≠ k`), otherwise recurse
      · exact absurd h.symm hk
      · simp only [jget, if_neg hk]
        exact ih h

/-- Every distance the seeding loop records is 0, for a start station with
non-negative remaining time. -/
theorem seed_get_some (l : List StartStation)
    (dq : List (String × Nat) × List (Nat × String)) (k : String) (v : Nat)
    (h : jget (l.foldl seedStep dq).1 k = some v) :
    jget dq.1 k = some v ∨
      (v = 0 ∧ ∃ s ∈ l, s.stationId = k ∧ 0 ≤ s.remainingTimeSec) := by
  induction l generalizing dq with
  | nil => exact Or.inl h
  | cons s l ih =>
    rcases ih (seedStep dq s) h with h1 | ⟨hv, s', hs', hk, hr⟩
    · by_cases hr : 0 ≤ s.remainingTimeSec
      · simp only [seedStep, if_pos hr] at h1
        by_cases hk : s.stationId = k
        · subst hk
          rw [jget_jset_self] at h1
          exact Or.inr ⟨(Option.some_inj.mp h1).symm,
            s, List.mem_cons_self _ _, rfl, hr⟩
        · rw [jget_jset_ne _ _ _ _ hk] at h1
          exact Or.inl h1
      · simp only [seedStep, if_neg hr] at h1
        exact Or.inl h1
    · exact Or.inr ⟨hv, s', List.mem_cons_of_mem _ hs', hk, hr⟩

/-- A recorded 0 distance survives the rest of the seeding loop. -/
theorem seed_keeps_zero (l : List StartStation)
    (dq : List (String × Nat) × List (Nat × String)) (k : String)
    (h : jget dq.1 k = some 0) :
    jget (l.foldl seedStep dq).1 k = some 0 := by
  induction l generalizing dq with
  | nil => exact h
  | cons s l ih =>
    refine ih (seedStep dq s) ?_
    by_cases hr : 0 ≤ s.remainingTimeSec
    · simp only [seedStep, if_pos hr]
      by_cases hk : s.stationId = k
      · subst hk; exact jget_jset_self _ _ _
      · rw [jget_jset_ne _ _ _ _ hk]; exact h
    · simp only [seedStep, if_neg hr]; exact h

/-- Every start station with non-negative remaining time is seeded at
distance 0. -/
theorem seed_mem (l : List StartStation)
    (dq : List (String × Nat) × List (Nat × String)) (s : StartStation)
    (hs : s ∈ l) (hr : 0 ≤ s.remainingTimeSec) :
    jget (l.foldl seedStep dq).1 s.stationId = some 0 := by
  induction l generalizing dq with
  | nil => cases hs
  | cons s₀ l ih =>
    rcases List.mem_cons.mp hs with h | h
    · subst h
      refine seed_keeps_zero l (seedStep dq s) s.stationId ?_
      simp only [seedStep, if_pos hr]
      exact jget_jset_self _ _ _
    · exact ih (seedStep dq s₀) h

theorem seed_nodup (l : List StartStation)
    (dq : List (String × Nat) × List (Nat × String))
    (h : (dq.1.map Prod.fst).Nodup) :
    (((l.foldl seedStep dq).1.map Prod.fst)).Nodup := by
  induction l generalizing dq with
  | nil => exact h
  | cons s l ih =>
    refine ih (seedStep dq s) ?_
    by_cases hr : 0 ≤ s.remainingTimeSec
    · simp only [seedStep, if_pos hr]
      exact jset_nodup_keys _ _ _ h
    · simp only [seedStep, if_neg hr]; exact h

/-- Every queue entry produced by the seeding loop is a 0-time entry for a
start station with non-negative remaining time. -/
theorem seed_queue_entries (l : List StartStation)
    (dq : List (String × Nat) × List (Nat × String)) (x : Nat × String)
    (hx : x ∈ (l.foldl seedStep dq).2) :
    x ∈ dq.2 ∨ (x.1 = 0 ∧
      ∃ s ∈ l, s.stationId = x.2 ∧ 0 ≤ s.remainingTimeSec) := by
  induction l generalizing dq with
  | nil => exact Or.inl hx
  | cons s l ih =>
    rcases ih (seedStep dq s) hx with h1 | ⟨hv, s', hs', hk, hr⟩
    · by_cases hr : 0 ≤ s.remainingTimeSec
      · simp only [seedStep, if_pos hr] at h1
        rcases List.mem_append.mp h1 with h2 | h2
        · exact Or.inl h2
        · have := List.mem_singleton.mp h2
          exact Or.inr ⟨by rw [this], s, List.mem_cons_self _ _,
            by rw [this], hr⟩
      · simp only [seedStep, if_neg hr] at h1
        exact Or.inl h1
    · exact Or.inr ⟨hv, s', List.mem_cons_of_mem _ hs', hk, hr⟩

/-- Old queue entries survive the seeding loop. -/
theorem seed_queue_mono (l : List StartStation)
    (dq : List (String × Nat) × List (Nat × String)) (x : Nat × String)
    (hx : x ∈ dq.2) : x ∈ (l.foldl seedStep dq).2 := by
  induction l generalizing dq with
  | nil => exact hx
  | cons s l ih =>
    refine ih (seedStep dq s) ?_
    by_cases hr : 0 ≤ s.remainingTimeSec
    · simp only [seedStep, if_pos hr]
      exact List.mem_append_left _ hx
    · simp only [seedStep, if_neg hr]; exact hx

/-- Every seeded start station has its 0-time entry in the seed queue. -/
theorem seed_queue_mem (l : List StartStation)
    (dq : List (String × Nat) × List (Nat × String)) (s : StartStation)
    (hs : s ∈ l) (hr : 0 ≤ s.remainingTimeSec) :
    (0, s.stationId) ∈ (l.foldl seedStep dq).2 := by
  induction l generalizing dq with
  | nil => cases hs
  | cons s₀ l ih =>
    rcases List.mem_cons.mp hs with h | h
    · subst h
      refine seed_queue_mono l (seedStep dq s) _ ?_
      simp only [seedStep, if_pos hr]
      exact List.mem_append_right _ (List.mem_singleton.mpr rfl)
    · exact ih (seedStep dq s₀) h

/-! ## Admissible times and the search invariant -/

/-- `Adm graph starts t k v`: time `v` is witnessed for station `k` by a
path from a seeded start station whose intermediate times all stay within
budget `t` — exactly the times the budget-bounded search can record. -/
inductive Adm (graph : Graph) (starts : List StartStation) (t : Int) :
    String → Nat → Prop
  | start (s : StartStation) (hs : s ∈ starts)
      (hr : 0 ≤ s.remainingTimeSec) : Adm graph starts t s.stationId 0
  | step (u : String) (d : Nat) (e : Edge) (hu : Adm graph starts t u d)
      (hd : (d : Int) ≤ t) (he : e ∈ (jget graph u).getD [])
      (hsum : ((d + e.travelTimeSec : Nat) : Int) ≤ t) :
      Adm graph starts t e.toId (d + e.travelTimeSec)

/-- Station `u` with recorded time `du` has been fully relaxed: every
in-budget outgoing edge's target holds a time no worse than `du` plus the
edge time. -/
def Relaxed (graph : Graph) (t : Int) (dist : List (String × Nat))
    (u : String) (du : Nat) : Prop :=
  (du : Int) ≤ t → ∀ e ∈ (jget graph u).getD [],
    ((du + e.travelTimeSec : Nat) : Int) ≤ t →
    ∃ w, jget dist e.toId = some w ∧ w ≤ du + e.travelTimeSec

/-- The search-loop invariant: the distance map is key-unique, seeded
starts stay at 0, every recorded and queued time is admissible, and every
recorded time is either still queued for expansion or already relaxed. -/
def LoopInv (graph : Graph) (starts : List StartStation) (t : Int)
    (dist : List (String × Nat)) (queue : List (Nat × String)) : Prop :=
  ((dist.map Prod.fst).Nodup) ∧
  (∀ s ∈ starts, 0 ≤ s.remainingTimeSec →
    jget dist s.stationId = some 0) ∧
  (∀ k v, jget dist k = some v → Adm graph starts t k v) ∧
  (∀ x ∈ queue, Adm graph starts t x.2 x.1) ∧
  (∀ k v, jget dist k = some v →
    (v, k) ∈ queue ∨ Relaxed graph t dist k v)

/-- The loop invariant is preserved when a stale queue entry is skipped. -/
theorem LoopInv_stale (graph : Graph) (starts : List StartStation) (t : Int)
    (dist : List (String × Nat)) (ct : Nat) (cid : String)
    (rest : List (Nat × String)) (best : Nat)
    (hjg : jget dist cid = some best) (hlt : best < ct)
    (h : LoopInv graph starts t dist ((ct, cid) :: rest)) :
    LoopInv graph starts t dist rest := by
  obtain ⟨hnd, hseed, hadm, hqadm, hrq⟩ := h
  refine ⟨hnd, hseed, hadm,
    fun x hx => hqadm x (List.mem_cons_of_mem _ hx), ?_⟩
  intro k v hkv
  rcases hrq k v hkv with hq | hr
  · rcases List.mem_cons.mp hq with h1 | h1
    · exfalso
      have hk : k = cid := congrArg Prod.snd h1
      have hv : v = ct := congrArg Prod.fst h1
      rw [hk] at hkv
      rw [hkv] at hjg
      have : v = best := Option.some_inj.mp hjg
      omega
    · exact Or.inl h1
  · exact Or.inr hr

/-- The loop invariant is preserved when an over-budget entry is
discarded without expansion. -/
theorem LoopInv_skip (graph : Graph) (starts : List StartStation) (t : Int)
    (dist : List (String × Nat)) (ct : Nat) (cid : String)
    (rest : List (Nat × String)) (hct : ¬ ((ct : Int) ≤ t))
    (h : LoopInv graph starts t dist ((ct, cid) :: rest)) :
    LoopInv graph starts t dist rest := by
  obtain ⟨hnd, hseed, hadm, hqadm, hrq⟩ := h
  refine ⟨hnd, hseed, hadm,
    fun x hx => hqadm x (List.mem_cons_of_mem _ hx), ?_⟩
  intro k v hkv
  rcases hrq k v hkv with hq | hr
  · rcases List.mem_cons.mp hq with h1 | h1
    · have hk : k = cid := congrArg Prod.snd h1
      have hv : v = ct := congrArg Prod.fst h1
      refine Or.inr ?_
      intro hvle
      exfalso
      rw [hv] at hvle
      exact hct hvle
    · exact Or.inl h1
  · exact Or.inr hr

/-- The loop invariant is preserved by an in-budget expansion. -/
theorem LoopInv_expand (graph : Graph) (starts : List StartStation)
    (t : Int) (dist : List (String × Nat)) (ct : Nat) (cid : String)
    (rest : List (Nat × String)) (hct : (ct : Int) ≤ t)
    (h : LoopInv graph starts t dist ((ct, cid) :: rest)) :
    LoopInv graph starts t
      (relaxEdges t ct ((jget graph cid).getD []) (dist, rest)).1
      (relaxEdges t ct ((jget graph cid).getD []) (dist, rest)).2 := by
  obtain ⟨hnd, hseed, hadm, hqadm, hrq⟩ := h
  have hAdmCid : Adm graph starts t cid ct :=
    hqadm (ct, cid) (List.mem_cons_self _ _)
  refine ⟨relaxEdges_nodup t ct _ (dist, rest) hnd, ?_, ?_, ?_, ?_⟩
  · intro s hs hr
    obtain ⟨v, hv, hvle⟩ := relaxEdges_antitone t ct
      ((jget graph cid).getD []) (dist, rest) s.stationId 0
      (hseed s hs hr)
    rw [hv]
    exact congrArg some (Nat.le_zero.mp hvle)
  · intro k v hkv
    rcases relaxEdges_new_or_old t ct _ (dist, rest) k v hkv with
      h1 | ⟨e, he, hek, hev, hel, _, _⟩
    · exact hadm k v h1
    · rw [← hek, hev]
      refine Adm.step cid ct e hAdmCid hct he ?_
      rw [← hev]
      exact hel
  · intro x hx
    rcases relaxEdges_queue_new t ct _ (dist, rest) x hx with
      h1 | ⟨e, he, hxe, hle⟩
    · exact hqadm x (List.mem_cons_of_mem _ h1)
    · rw [hxe]
      exact Adm.step cid ct e hAdmCid hct he hle
  · intro k v hkv
    rcases relaxEdges_new_or_old t ct _ (dist, rest) k v hkv with
      h1 | ⟨_, _, _, _, _, hq, _⟩
    · rcases hrq k v h1 with hq | hr
      · rcases List.mem_cons.mp hq with h2 | h2
        · have hk : k = cid := congrArg Prod.snd h2
          have hv : v = ct := congrArg Prod.fst h2
          subst hk
          subst hv
          refine Or.inr ?_
          intro _ e he hsum
          exact relaxEdges_closure t v _ (dist, rest) e he hsum
        · exact Or.inl (relaxEdges_queue_mono t ct _ (dist, rest) _ h2)
      · refine Or.inr ?_
        intro hvle e he hsum
        obtain ⟨w, hw, hwle⟩ := hr hvle e he hsum
        obtain ⟨w', hw', hw'le⟩ := relaxEdges_antitone t ct
          ((jget graph cid).getD []) (dist, rest) e.toId w hw
        exact ⟨w', hw', hw'le.trans hwle⟩
    · exact Or.inl hq

/-- The loop invariant holds of the freshly seeded state. -/
theorem LoopInv_init (graph : Graph) (starts : List StartStation) (t : Int) :
    LoopInv graph starts t (seedStarts starts).1
      (sortQueue (seedStarts starts).2) := by
  refine ⟨seed_nodup starts ([], []) (by simp),
    fun s hs hr => seed_mem starts ([], []) s hs hr, ?_, ?_, ?_⟩
  · intro k v h
    rcases seed_get_some starts ([], []) k v h with h1 | ⟨hv, s, hs, hid, hr⟩
    · simp at h1
    · rw [← hid, hv]
      exact Adm.start s hs hr
  · intro x hx
    rcases seed_queue_entries starts ([], []) x
        ((mem_sortQueue _ _).mp hx) with h1 | ⟨hv, s, hs, hid, hr⟩
    · simp at h1
    · rw [← hid, hv]
      exact Adm.start s hs hr
  · intro k v h
    rcases seed_get_some starts ([], []) k v h with h1 | ⟨hv, s, hs, hid, hr⟩
    · simp at h1
    · refine Or.inl ?_
      rw [hv, ← hid]
      exact (mem_sortQueue _ _).mpr (seed_queue_mem starts ([], []) s hs hr)

/-- Every binding produced by the seeding loop is an old one or has
value 0. -/
theorem seed_vals (l : List StartStation)
    (dq : List (String × Nat) × List (Nat × String)) (kv : String × Nat)
    (hkv : kv ∈ (l.foldl seedStep dq).1) : kv ∈ dq.1 ∨ kv.2 = 0 := by
  induction l generalizing dq with
  | nil => exact Or.inl hkv
  | cons s l ih =>
    rcases ih (seedStep dq s) hkv with h1 | h1
    · by_cases hr : 0 ≤ s.remainingTimeSec
      · simp only [seedStep, if_pos hr] at h1
        rcases jset_mem h1 with h2 | h2
        · exact Or.inl h2
        · rw [h2]
          exact Or.inr rfl
      · simp only [seedStep, if_neg hr] at h1
        exact Or.inl h1
    · exact Or.inr h1

/-- Lookup of an absent key fails. -/
theorem jget_eq_none_of_not_mem {α : Type} {m : List (String × α)}
    {k : String} (h : k ∉ m.map Prod.fst) : jget m k = none := by
  induction m with
  | nil => rfl
  | cons hd tl ih =>
    obtain ⟨k₀, v₀⟩ := hd
    simp only [List.map_cons, List.mem_cons] at h
    push_neg at h
    have hne : ¬ (k₀ = k) := fun he => h.1 he.symm
    rw [jget_cons, if_neg hne]
    exact ih h.2

/-- Edge targets reachable through the adjacency lists belong to the key
universe. -/
theorem graph_target_mem (graph : Graph) (starts : List StartStation)
    (cid : String) (es : List Edge) (e : Edge)
    (hjg : jget graph cid = some es) (he : e ∈ es) :
    e.toId ∈ keyUniverse starts graph := by
  refine List.mem_append_right _ ?_
  have hmem : (cid, es) ∈ graph := mem_of_jget_eq hjg
  clear hjg
  induction graph with
  | nil => cases hmem
  | cons hd tl ih =>
    simp only [List.foldr_cons]
    rcases List.mem_cons.mp hmem with h1 | h1
    · refine List.mem_append_left _ ?_
      rw [← h1]
      exact List.mem_map.mpr ⟨e, he, rfl⟩
    · exact List.mem_append_right _ (ih h1)

/-- The fuel chosen by `findReachableStations` suffices: the loop always
drains its queue and returns a final distance map. -/
theorem findReachable_run (graph : Graph) (starts : List StartStation)
    (t : Int) :
    ∃ d, dijkstraLoop graph t (fuelBound starts t graph)
      (seedStarts starts).1 (sortQueue (seedStarts starts).2) = some d := by
  refine dijkstraLoop_adequate graph t t.toNat (fun v hv => by omega)
    (keyUniverse starts graph)
    (fun cid es e hjg he => graph_target_mem graph starts cid es e hjg he)
    _ _ _ ?_ (seed_nodup starts ([], []) (by simp)) ?_ ?_
  · intro kv hkv
    rcases seed_vals starts ([], []) kv hkv with h | h
    · simp at h
    · omega
  · intro k hk
    have hsome := jget_isSome_of_mem_keys hk
    obtain ⟨v, hv⟩ := Option.isSome_iff_exists.mp hsome
    rcases seed_get_some starts ([], []) k v hv with h1 | ⟨_, s, hs, hid, _⟩
    · simp at h1
    · refine List.mem_append_left _ ?_
      exact List.mem_map.mpr ⟨s, hs, hid⟩
  · rw [length_sortQueue]
    simp only [fuelBound]
    have hcomm : (keyUniverse starts graph).dedup.length * (t.toNat + 1) =
        (t.toNat + 1) * (keyUniverse starts graph).dedup.length :=
      Nat.mul_comm _ _
    rw [hcomm]
    omega

/-- After `findReachableStations` drains its queue, the loop invariant
holds of the final distance map. -/
theorem loop_final (graph : Graph) (starts : List StartStation) (t : Int)
    (fuel : Nat) (dist₁ : List (String × Nat))
    (hrun : dijkstraLoop graph t fuel (seedStarts starts).1
      (sortQueue (seedStarts starts).2) = some dist₁) :
    LoopInv graph starts t dist₁ [] :=
  dijkstraLoop_invariant graph t (LoopInv graph starts t)
    (fun dist ct cid rest best h1 h2 h3 =>
      LoopInv_stale graph starts t dist ct cid rest best h1 h2 h3)
    (fun dist ct cid rest h1 h2 =>
      LoopInv_skip graph starts t dist ct cid rest h1 h2)
    (fun dist ct cid rest _ hct h =>
      LoopInv_expand graph starts t dist ct cid rest hct h)
    fuel _ _ dist₁ (LoopInv_init graph starts t) hrun

/-- Admissible times at a smaller budget transfer to the final distance
map of a run at a larger budget: the recorded time is at least as good. -/
theorem adm_transfer (graph : Graph) (starts : List StartStation)
    (t₁ t₂ : Int) (h12 : t₁ ≤ t₂) (dist₂ : List (String × Nat))
    (hseed₂ : ∀ s ∈ starts, 0 ≤ s.remainingTimeSec →
      jget dist₂ s.stationId = some 0)
    (hclosed₂ : ∀ k v, jget dist₂ k = some v → Relaxed graph t₂ dist₂ k v)
    (k : String) (v : Nat) (hadm : Adm graph starts t₁ k v) :
    ∃ w, jget dist₂ k = some w ∧ w ≤ v := by
  induction hadm with
  | start s hs hr => exact ⟨0, hseed₂ s hs hr, le_rfl⟩
  | step u d e hu hd he hsum ih =>
    obtain ⟨w, hw, hwle⟩ := ih
    have hwt : (w : Int) ≤ t₂ := by
      have : (w : Int) ≤ (d : Int) := by exact_mod_cast hwle
      omega
    have hsum₂ : ((w + e.travelTimeSec : Nat) : Int) ≤ t₂ := by
      push_cast
      push_cast at hsum
      omega
    obtain ⟨w', hw', hw'le⟩ := hclosed₂ u w hw hwt e he hsum₂
    exact ⟨w', hw', by omega⟩

/-- Characterization of the final filtering loop on a key-unique distance
map: a lookup succeeds exactly for recorded in-budget times. -/
theorem filterWithin_aux (t : Int) :
    ∀ (d acc : List (String × Nat)) (k : String),
      ((d.map Prod.fst).Nodup) →
      (∀ k₀ ∈ d.map Prod.fst, jget acc k₀ = none) →
      jget (d.foldl (fun result kv =>
        if (kv.2 : Int) ≤ t then jset result kv.1 kv.2 else result) acc) k =
        match jget d k with
        | some v => if (v : Int) ≤ t then some v else none
        | none => jget acc k := by
  intro d
  induction d with
  | nil => intro acc k _ _; rfl
  | cons hd tl ih =>
    intro acc k hnd hdisj
    obtain ⟨k₀, v₀⟩ := hd
    simp only [List.map_cons, List.nodup_cons] at hnd
    have hdisj' : ∀ k₁ ∈ tl.map Prod.fst,
        jget (if (v₀ : Int) ≤ t then jset acc k₀ v₀ else acc) k₁ = none := by
      intro k₁ hk₁
      have hne : k₀ ≠ k₁ := fun he => hnd.1 (he ▸ hk₁)
      by_cases hv : (v₀ : Int) ≤ t
      · rw [if_pos hv, jget_jset_ne _ _ _ _ hne]
        exact hdisj k₁ (List.mem_cons_of_mem _ hk₁)
      · rw [if_neg hv]
        exact hdisj k₁ (List.mem_cons_of_mem _ hk₁)
    have hstep : ((k₀, v₀) :: tl).foldl (fun result kv =>
        if (kv.2 : Int) ≤ t then jset result kv.1 kv.2 else result) acc =
        tl.foldl (fun result kv =>
          if (kv.2 : Int) ≤ t then jset result kv.1 kv.2 else result)
          (if (v₀ : Int) ≤ t then jset acc k₀ v₀ else acc) := rfl
    rw [hstep, ih _ k hnd.2 hdisj']
    by_cases hk : k₀ = k
    · subst hk
      have htl : jget tl k₀ = none := jget_eq_none_of_not_mem hnd.1
      simp only [htl, jget_cons, eq_self_iff_true, if_true]
      by_cases hv : (v₀ : Int) ≤ t
      · rw [if_pos hv, if_pos hv, jget_jset_self]
      · rw [if_neg hv, if_neg hv]
        exact hdisj k₀ (by simp)
    · rw [jget_cons, if_neg hk]
      cases htl : jget tl k with
      | some v => rfl
      | none =>
        simp only [htl]
        by_cases hv : (v₀ : Int) ≤ t
        · rw [if_pos hv, jget_jset_ne _ _ _ _ hk]
        · rw [if_neg hv]

theorem filterWithin_get (t : Int) (d : List (String × Nat))
    (hnd : (d.map Prod.fst).Nodup) (k : String) :
    jget (filterWithin t d) k =
      match jget d k with
      | some v => if (v : Int) ≤ t then some v else none
      | none => none := by
  have := filterWithin_aux t d [] k hnd (fun _ _ => rfl)
  simp only [filterWithin]
  rw [this]
  cases jget d k with
  | some v => rfl
  | none => rfl

/-- The search result does not depend on the exact non-negative remaining
time of a single start station (the algorithm only tests its sign). -/
theorem findReachable_start_irrelevant (i : String) (r : Int)
    (hr : 0 ≤ r) (t : Int) (g : Graph) :
    findReachableStations [⟨i, r⟩] t g =
      findReachableStations [⟨i, 0⟩] t g := by
  have hseed : seedStarts [⟨i, r⟩] = seedStarts [⟨i, 0⟩] := by
    simp [seedStarts, seedStep, hr]
  have hku : keyUniverse [⟨i, r⟩] g = keyUniverse [⟨i, 0⟩] g := rfl
  simp only [findReachableStations, fuelBound, hseed, hku]

/-- The 3-node line network of the reachability correctness test:
A→B takes 60 seconds and B→C takes 120 seconds. -/
def lineNetwork : ProcessedNetwork where
  stations :=
    [⟨"A", "Station A", 0, 0, false, []⟩,
     ⟨"B", "Station B", 0, 0, false, []⟩,
     ⟨"C", "Station C", 0, 0, false, []⟩]
  edges := [⟨"A", "B", 60, "r1"⟩, ⟨"B", "C", 120, "r1"⟩]

/-- C1: on the 3-node line graph A→B (60 s), B→C (120 s), starting from
the single station A with any non-negative remaining time,
`findReachableStations` returns exactly `{A: 0, B: 60, C: 180}` for budget
200 s, and exactly `{A: 0, B: 60}` for budget 170 s (C is excluded because
180 > 170). -/
theorem C1_line_graph_reachability (r : Int) (hr : 0 ≤ r) :
    findReachableStations [⟨"A", r⟩] 200 (buildGraph lineNetwork) =
        [("A", 0), ("B", 60), ("C", 180)] ∧
      findReachableStations [⟨"A", r⟩] 170 (buildGraph lineNetwork) =
        [("A", 0), ("B", 60)] := by
  constructor
  · rw [findReachable_start_irrelevant "A" r hr 200 (buildGraph lineNetwork)]
    decide
  · rw [findReachable_start_irrelevant "A" r hr 170 (buildGraph lineNetwork)]
    decide

theorem C1_line_graph_reachability_witness :
    (0 : Int) ≤ 0 ∧
      (findReachableStations [⟨"A", 0⟩] 200 (buildGraph lineNetwork) =
          [("A", 0), ("B", 60), ("C", 180)] ∧
        findReachableStations [⟨"A", 0⟩] 170 (buildGraph lineNetwork) =
          [("A", 0), ("B", 60)]) :=
  ⟨le_rfl, C1_line_graph_reachability 0 le_rfl⟩

/-- C2: the Reachability Search is monotonic in the budget: for every
graph, every start-station set and budgets `t₁ ≤ t₂`, every station
reachable within `t₁` is also reachable within `t₂`. -/
theorem C2_budget_monotonic (graph : Graph)
    (startStations : List StartStation) (t₁ t₂ : Int) (h12 : t₁ ≤ t₂)
    (v : String)
    (hv : (jget (findReachableStations startStations t₁ graph) v).isSome) :
    (jget (findReachableStations startStations t₂ graph) v).isSome := by
  obtain ⟨d₁, hd₁⟩ := findReachable_run graph startStations t₁
  obtain ⟨d₂, hd₂⟩ := findReachable_run graph startStations t₂
  have hres₁ : findReachableStations startStations t₁ graph =
      filterWithin t₁ d₁ := by
    simp only [findReachableStations, hd₁]
  have hres₂ : findReachableStations startStations t₂ graph =
      filterWithin t₂ d₂ := by
    simp only [findReachableStations, hd₂]
  have hinv₁ := loop_final graph startStations t₁ _ d₁ hd₁
  have hinv₂ := loop_final graph startStations t₂ _ d₂ hd₂
  rw [hres₁, filterWithin_get t₁ d₁ hinv₁.1 v] at hv
  rcases hjg : jget d₁ v with _ | x
  · simp only [hjg] at hv
    simp at hv
  · simp only [hjg] at hv
    by_cases hx : (x : Int) ≤ t₁
    · have hadm : Adm graph startStations t₁ v x := hinv₁.2.2.1 v x hjg
      have hclosed₂ : ∀ k w, jget d₂ k = some w →
          Relaxed graph t₂ d₂ k w := by
        intro k w h
        rcases hinv₂.2.2.2.2 k w h with hq | hrx
        · cases hq
        · exact hrx
      obtain ⟨w, hw, hwle⟩ := adm_transfer graph startStations t₁ t₂ h12
        d₂ hinv₂.2.1 hclosed₂ v x hadm
      rw [hres₂, filterWithin_get t₂ d₂ hinv₂.1 v]
      have hwt : (w : Int) ≤ t₂ := by
        have hcast : (w : Int) ≤ (x : Int) := by exact_mod_cast hwle
        omega
      simp only [hw]
      rw [if_pos hwt]
      rfl
    · rw [if_neg hx] at hv
      simp at hv

theorem C2_budget_monotonic_witness :
    (170 : Int) ≤ 200 ∧
      (jget (findReachableStations [⟨"A", 0⟩] 170
        (buildGraph lineNetwork)) "B").isSome ∧
      (jget (findReachableStations [⟨"A", 0⟩] 200
        (buildGraph lineNetwork)) "B").isSome :=
  ⟨by decide, by decide,
    C2_budget_monotonic (buildGraph lineNetwork) [⟨"A", 0⟩] 170 200
      (by decide) "B" (by decide)⟩

/-! ## C9: totality of the graph index -/

/-- An empty adjacency entry survives the station-initialization loop
(every write writes `[]`). -/
theorem buildGraph_init_keeps (l : List Station) (g : Graph) (k : String)
    (h : jget g k = some []) :
    jget (l.foldl (fun g s => jset g s.id []) g) k = some [] := by
  induction l generalizing g with
  | nil => exact h
  | cons s l ih =>
    refine ih (jset g s.id []) ?_
    by_cases hk : s.id = k
    · subst hk; exact jget_jset_self _ _ _
    · rw [jget_jset_ne _ _ _ _ hk]; exact h

/-- Every station is initialized with an empty adjacency entry. -/
theorem buildGraph_init_mem (l : List Station) (g : Graph) (s : Station)
    (hs : s ∈ l) :
    jget (l.foldl (fun g s => jset g s.id []) g) s.id = some [] := by
  induction l generalizing g with
  | nil => cases hs
  | cons s₀ l ih =>
    rcases List.mem_cons.mp hs with h | h
    · subst h
      exact buildGraph_init_keeps l (jset g s.id []) s.id
        (jget_jset_self _ _ _)
    · exact ih (jset g s₀.id []) h

/-- The edge loop of `buildGraph` appends, to each present entry, exactly
the edges leaving that station, in order. -/
theorem buildGraph_edges_get (edges : List Edge) (g : Graph) (k : String)
    (l : List Edge) (h : jget g k = some l) :
    jget (edges.foldl
        (fun g e =>
          match jget g e.fromId with
          | some es => jset g e.fromId (es ++ [e])
          | none => g) g) k =
      some (l ++ edges.filter (fun e => e.fromId == k)) := by
  induction edges generalizing g l with
  | nil => simpa using h
  | cons e es ih =>
    by_cases hk : e.fromId = k
    · have hstep : (match jget g e.fromId with
          | some es => jset g e.fromId (es ++ [e])
          | none => g) = jset g k (l ++ [e]) := by
        rw [hk, h]
      simp only [List.foldl_cons]
      rw [hstep]
      have := ih (jset g k (l ++ [e])) (l ++ [e]) (jget_jset_self _ _ _)
      rw [this]
      have hfil : (e :: es).filter (fun e => e.fromId == k) =
          e :: es.filter (fun e => e.fromId == k) := by
        simp [List.filter_cons, hk]
      rw [hfil]
      simp
    · have hfil : (e :: es).filter (fun e => e.fromId == k) =
          es.filter (fun e => e.fromId == k) := by
        simp [List.filter_cons, hk]
      simp only [List.foldl_cons]
      rw [hfil]
      cases hadj : jget g e.fromId with
      | none => exact ih g l h
      | some es₀ =>
        refine ih (jset g e.fromId (es₀ ++ [e])) l ?_
        rw [jget_jset_ne _ _ _ _ hk]
        exact h

/-- C9: the graph built by `buildGraph` has an entry for every station id
of the network — exactly the station's outgoing edges in order — and a
station with no outgoing edges maps to the empty collection, so a lookup
by a known station id never fails. -/
theorem C9_graph_entry_for_every_station (net : ProcessedNetwork)
    (s : Station) (hs : s ∈ net.stations) :
    jget (buildGraph net) s.id =
        some (net.edges.filter (fun e => e.fromId == s.id)) ∧
      ((∀ e ∈ net.edges, e.fromId ≠ s.id) →
        jget (buildGraph net) s.id = some []) := by
  have hmain : jget (buildGraph net) s.id =
      some (net.edges.filter (fun e => e.fromId == s.id)) := by
    have hinit := buildGraph_init_mem net.stations [] s hs
    have := buildGraph_edges_get net.edges
      (net.stations.foldl (fun g s => jset g s.id []) []) s.id [] hinit
    simpa [buildGraph] using this
  refine ⟨hmain, fun hno => ?_⟩
  rw [hmain]
  have : net.edges.filter (fun e => e.fromId == s.id) = [] := by
    refine List.filter_eq_nil_iff.mpr ?_
    intro e he
    simpa using hno e he
  rw [this]

theorem C9_graph_entry_for_every_station_witness :
    (⟨"C", "Station C", 0, 0, false, []⟩ : Station) ∈ lineNetwork.stations ∧
      (∀ e ∈ lineNetwork.edges, e.fromId ≠ "C") ∧
      jget (buildGraph lineNetwork) "C" = some [] :=
  ⟨by decide, by decide,
    (C9_graph_entry_for_every_station lineNetwork
      ⟨"C", "Station C", 0, 0, false, []⟩ (by decide)).2 (by decide)⟩

/-! ## Distance utilities (`src/utils/distance.ts`)

Geodesic distance is computed by the external `turf.distance`; the
embedding takes it as a parameter `turfDistance` (miles), so every theorem
over it holds for any geometry. -/

/-- Geocode result, per `src/types/geocoding.ts`. -/
structure GeocodeResult where
  longitude : Rat
  latitude : Rat
  placeName : String

/-- Standard walking speed in miles per hour. -/
def WALKING_SPEED_MPH : Rat := 3

/-- Default maximum walking distance in miles (0.5 miles). -/
def DEFAULT_MAX_WALK_DISTANCE_MILES : Rat := 1 / 2

/-- `calculateWalkingTime`: walking seconds from miles,
`Math.round(distance / speed * 3600)` (JS `Math.round` is `⌊x + 1/2⌋`). -/
def calculateWalkingTime (distanceMiles : Rat) (walkSpeedMph : Rat) : Int :=
  round (distanceMiles / walkSpeedMph * 3600)

/-- A station within walking range together with its distance and walking
time, as produced by `findNearestStations`. -/
structure NearbyStation where
  station : Station
  distanceMiles : Rat
  walkingTimeSec : Int
deriving DecidableEq

/-- Stable ascending insertion by distance (strict comparison keeps an
earlier element before later ties), mirroring the JS stable sort. -/
def insertByDistance (x : NearbyStation) :
    List NearbyStation → List NearbyStation
  | [] => [x]
  | y :: ys =>
    if y.distanceMiles < x.distanceMiles then y :: insertByDistance x ys
    else x :: y :: ys

/-- `results.sort((a, b) => a.distanceMiles - b.distanceMiles)`. -/
def sortByDistance (l : List NearbyStation) : List NearbyStation :=
  l.foldr insertByDistance []

/-- `findNearestStations` from `distance.ts`: stations within the walking
threshold with their walking times, sorted by distance ascending. -/
def findNearestStations (turfDistance : Rat → Rat → Rat → Rat → Rat)
    (officeLat officeLon : Rat) (stations : List Station)
    (maxWalkDistanceMiles : Rat) : List NearbyStation :=
  let results := stations.foldl
    (fun acc station =>
      let distance := turfDistance officeLat officeLon station.lat station.lon
      if distance ≤ maxWalkDistanceMiles then
        acc ++ [⟨station, distance,
          calculateWalkingTime distance WALKING_SPEED_MPH⟩]
      else acc)
    []
  sortByDistance results

/-! ## Isochrone synthesis (`src/utils/isochrone.ts`)

`turf.buffer` and `turf.union` are external geometry; the embedding takes
the polygon type and both functions as parameters (`turf.union` may return
null, hence `Option`). -/

/-- Default maximum travel time in seconds (30 minutes). -/
def DEFAULT_MAX_TRAVEL_TIME_SEC : Int := 30 * 60

/-- Result of the isochrone calculation, per `types/isochrone.ts`. -/
structure ReachableStation where
  stationId : String
  travelTimeSec : Int
deriving DecidableEq

structure IsochroneResult (Poly : Type) where
  polygon : Poly
  reachableStations : List ReachableStation
  totalStations : Nat

/-- `unionBuffers` from `isochrone.ts`: no buffers yield null, a single
buffer short-circuits to itself, otherwise the external `turf.union`
decides (and may yield null). -/
def unionBuffers {Poly : Type} (turfUnion : List Poly → Option Poly)
    (buffers : List Poly) : Option Poly :=
  match buffers with
  | [] => none
  | [b] => some b
  | bs => turfUnion bs

/-- The inner result-merging loop of Step 4 of `createIsochrone`: fold one
independent search result into the merged map, keeping per destination the
minimum total time (`walkingTimeSec + subwayTime`). -/
def mergeInto (walkingTimeSec : Int) (acc : List (String × Int))
    (reachableFromStart : List (String × Nat)) : List (String × Int) :=
  reachableFromStart.foldl
    (fun acc2 kv =>
      let totalTime := walkingTimeSec + (kv.2 : Int)
      match jget acc2 kv.1 with
      | some existingTime =>
        if totalTime < existingTime then jset acc2 kv.1 totalTime else acc2
      | none => jset acc2 kv.1 totalTime)
    acc

/-- One iteration of Step 4 of `createIsochrone`: for a nearby station with
walking time within the budget, run the search independently from it with
the remaining budget and merge its results. -/
def mergeStep (graph : Graph) (maxTravelTimeSec : Int)
    (acc : List (String × Int)) (nearby : NearbyStation) :
    List (String × Int) :=
  if nearby.walkingTimeSec ≤ maxTravelTimeSec then
    mergeInto nearby.walkingTimeSec acc
      (findReachableStations
        [⟨nearby.station.id, maxTravelTimeSec - nearby.walkingTimeSec⟩]
        (maxTravelTimeSec - nearby.walkingTimeSec) graph)
  else acc

/-- Step 4 of `createIsochrone`: the per-start independent searches merged
by the caller into one minimum-total-time map. -/
def reachableStationsMap (graph : Graph) (maxTravelTimeSec : Int)
    (nearbyStations : List NearbyStation) : List (String × Int) :=
  nearbyStations.foldl (mergeStep graph maxTravelTimeSec) []

/-- Step 5 of `createIsochrone`: station lookup map. -/
def stationLookupMap (network : ProcessedNetwork) :
    List (String × Station) :=
  network.stations.foldl (fun m s => jset m s.id s) []

/-- Step 6 of `createIsochrone`: a walkshed buffer around each reachable
station that exists in the lookup map. -/
def isochroneBuffers {Poly : Type} (turfBuffer : Station → Rat → Poly)
    (walkDistanceMiles : Rat) (stationMap : List (String × Station))
    (reachableStations : List ReachableStation) : List Poly :=
  reachableStations.foldl
    (fun bufs r =>
      match jget stationMap r.stationId with
      | some station => bufs ++ [turfBuffer station walkDistanceMiles]
      | none => bufs)
    []

/-- `createIsochrone` from `isochrone.ts`: nearby stations, valid starts,
per-start searches merged to minimum totals, walkshed buffers, union. -/
def createIsochrone {Poly : Type}
    (turfDistance : Rat → Rat → Rat → Rat → Rat)
    (turfBuffer : Station → Rat → Poly)
    (turfUnion : List Poly → Option Poly)
    (officeLocation : GeocodeResult) (network : ProcessedNetwork)
    (maxTravelTimeSec : Int)
    (walkDistanceMiles maxWalkDistanceMiles : Rat) :
    Option (IsochroneResult Poly) :=
  let nearbyStations := findNearestStations turfDistance
    officeLocation.latitude officeLocation.longitude network.stations
    maxWalkDistanceMiles
  if nearbyStations.length = 0 then none
  else
    let graph := buildGraph network
    let startStations : List StartStation := nearbyStations.map
      (fun ns => ⟨ns.station.id, maxTravelTimeSec - ns.walkingTimeSec⟩)
    let validStartStations := startStations.filter
      (fun s => 0 < s.remainingTimeSec)
    if validStartStations.length = 0 then none
    else
      let reachableStations : List ReachableStation :=
        (reachableStationsMap graph maxTravelTimeSec nearbyStations).map
          (fun kv => ⟨kv.1, kv.2⟩)
      if reachableStations.length = 0 then none
      else
        let stationMap := stationLookupMap network
        let buffers := isochroneBuffers turfBuffer walkDistanceMiles
          stationMap reachableStations
        match unionBuffers turfUnion buffers with
        | some unionedPolygon =>
          some ⟨unionedPolygon, reachableStations, reachableStations.length⟩
        | none => none

/-! ## C3: caller-side cross-start minimum merge -/

/-- The filtering loop preserves key-uniqueness. -/
theorem filterWithin_foldl_nodup (t : Int) (d acc : List (String × Nat))
    (h : (acc.map Prod.fst).Nodup) :
    ((d.foldl (fun result kv =>
        if (kv.2 : Int) ≤ t then jset result kv.1 kv.2 else result)
      acc).map Prod.fst).Nodup := by
  induction d generalizing acc with
  | nil => exact h
  | cons kv d ih =>
    simp only [List.foldl_cons]
    refine ih _ ?_
    by_cases hv : (kv.2 : Int) ≤ t
    · rw [if_pos hv]
      exact jset_nodup_keys _ _ _ h
    · rw [if_neg hv]
      exact h

/-- The search result map has unique keys. -/
theorem findReachableStations_nodup (starts : List StartStation) (t : Int)
    (g : Graph) :
    ((findReachableStations starts t g).map Prod.fst).Nodup := by
  rcases hrun : dijkstraLoop g t (fuelBound starts t g)
      (seedStarts starts).1 (sortQueue (seedStarts starts).2) with _ | d
  · simp only [findReachableStations, hrun]
    simp
  · simp only [findReachableStations, hrun]
    exact filterWithin_foldl_nodup t d [] (by simp)

/-- Minimum-keeping merge of one candidate total into an optional best. -/
def combine2 (a : Option Int) (b : Int) : Option Int :=
  match a with
  | none => some b
  | some a₀ => some (min a₀ b)

/-- Lookup after merging one search result: combine the previous best with
this start's total for the destination, when the destination is in this
result. -/
theorem mergeInto_get (w : Int) (R : List (String × Nat))
    (acc : List (String × Int)) (d : String)
    (hnd : (R.map Prod.fst).Nodup) :
    jget (mergeInto w acc R) d =
      match jget R d with
      | some st => combine2 (jget acc d) (w + (st : Int))
      | none => jget acc d := by
  induction R generalizing acc with
  | nil => rfl
  | cons kv R ih =>
    obtain ⟨k₀, st₀⟩ := kv
    simp only [List.map_cons, List.nodup_cons] at hnd
    have hstep : mergeInto w acc ((k₀, st₀) :: R) =
        mergeInto w
          (match jget acc k₀ with
            | some existingTime =>
              if w + (st₀ : Int) < existingTime then
                jset acc k₀ (w + (st₀ : Int))
              else acc
            | none => jset acc k₀ (w + (st₀ : Int))) R := rfl
    rw [hstep, ih _ hnd.2]
    by_cases hk : k₀ = d
    · subst hk
      have hR : jget R k₀ = none := jget_eq_none_of_not_mem hnd.1
      simp only [hR, jget_cons, eq_self_iff_true, if_true]
      cases hacc : jget acc k₀ with
      | none =>
        show jget (jset acc k₀ (w + (st₀ : Int))) k₀ =
          combine2 none (w + (st₀ : Int))
        rw [jget_jset_self]
        rfl
      | some ex =>
        show jget (if w + (st₀ : Int) < ex then
            jset acc k₀ (w + (st₀ : Int)) else acc) k₀ =
          combine2 (some ex) (w + (st₀ : Int))
        by_cases hlt : w + (st₀ : Int) < ex
        · rw [if_pos hlt, jget_jset_self]
          simp only [combine2]
          rw [min_eq_right (le_of_lt hlt)]
        · rw [if_neg hlt, hacc]
          simp only [combine2]
          rw [min_eq_left (le_of_not_lt hlt)]
    · rw [jget_cons, if_neg hk]
      have hacc' : jget (match jget acc k₀ with
          | some existingTime =>
            if w + (st₀ : Int) < existingTime then
              jset acc k₀ (w + (st₀ : Int))
            else acc
          | none => jset acc k₀ (w + (st₀ : Int))) d = jget acc d := by
        cases hacc : jget acc k₀ with
        | none => exact jget_jset_ne _ _ _ _ hk
        | some ex =>
          show jget (if w + (st₀ : Int) < ex then
              jset acc k₀ (w + (st₀ : Int)) else acc) d = jget acc d
          by_cases hlt : w + (st₀ : Int) < ex
          · rw [if_pos hlt]
            exact jget_jset_ne _ _ _ _ hk
          · rw [if_neg hlt]
      rw [hacc']

/-- Following the spec's words (§4.5 step 3): the candidate totals for a
destination — one per walk-accessible start whose walking time is within
the budget and whose independent search (with remaining budget
`total - walkingTime`) reaches the destination — each equal to
`walkingTime + transitTimeFromThatStart`. -/
def specStartContributions (graph : Graph) (maxTravelTimeSec : Int)
    (nearbyStations : List NearbyStation) (d : String) : List Int :=
  nearbyStations.filterMap
    (fun ns =>
      if ns.walkingTimeSec ≤ maxTravelTimeSec then
        match jget (findReachableStations
            [⟨ns.station.id, maxTravelTimeSec - ns.walkingTimeSec⟩]
            (maxTravelTimeSec - ns.walkingTimeSec) graph) d with
        | some st => some (ns.walkingTimeSec + (st : Int))
        | none => none
      else none)

/-- The outer merge loop computes, per destination, the `combine2`-fold of
all candidate totals. -/
theorem reachableStationsMap_foldl (graph : Graph) (maxT : Int)
    (nearbyStations : List NearbyStation) (acc : List (String × Int))
    (d : String) :
    jget (nearbyStations.foldl (mergeStep graph maxT) acc) d =
      (specStartContributions graph maxT nearbyStations d).foldl combine2
        (jget acc d) := by
  induction nearbyStations generalizing acc with
  | nil => rfl
  | cons ns rest ih =>
    simp only [List.foldl_cons]
    rw [ih (mergeStep graph maxT acc ns)]
    by_cases hw : ns.walkingTimeSec ≤ maxT
    · have hstep : mergeStep graph maxT acc ns =
          mergeInto ns.walkingTimeSec acc
            (findReachableStations
              [⟨ns.station.id, maxT - ns.walkingTimeSec⟩]
              (maxT - ns.walkingTimeSec) graph) := by
        simp only [mergeStep, if_pos hw]
      rw [hstep, mergeInto_get _ _ _ _
        (findReachableStations_nodup _ _ _)]
      rcases hR : jget (findReachableStations
          [⟨ns.station.id, maxT - ns.walkingTimeSec⟩]
          (maxT - ns.walkingTimeSec) graph) d with _ | st
      · simp only [hR]
        simp only [specStartContributions, List.filterMap_cons, if_pos hw,
          hR, Option.map_none]
      · simp only [hR]
        simp only [specStartContributions, List.filterMap_cons, if_pos hw,
          hR, Option.map_some]
        rfl
    · have hstep : mergeStep graph maxT acc ns = acc := by
        simp only [mergeStep, if_neg hw]
      rw [hstep]
      simp only [specStartContributions, List.filterMap_cons, if_neg hw]

/-- Whatever the `combine2`-fold returns is a minimum of its inputs (or
the carried-in value). -/
theorem foldl_combine2_some (l : List Int) (a : Option Int) (v : Int)
    (h : l.foldl combine2 a = some v) :
    (a = some v ∨ v ∈ l) ∧ (∀ w ∈ l, v ≤ w) ∧
      (∀ u, a = some u → v ≤ u) := by
  induction l generalizing a with
  | nil =>
    exact ⟨Or.inl h, by simp, fun u hu => le_of_eq
      (Option.some_inj.mp (hu ▸ h)).symm⟩
  | cons b l ih =>
    simp only [List.foldl_cons] at h
    obtain ⟨h1, h2, h3⟩ := ih (combine2 a b) h
    have hvb : v ≤ b := by
      cases ha : a with
      | none => exact h3 b (by simp [combine2, ha])
      | some a₀ =>
        exact (h3 (min a₀ b) (by simp [combine2, ha])).trans
          (min_le_right _ _)
    refine ⟨?_, ?_, ?_⟩
    · rcases h1 with h1 | h1
      · cases ha : a with
        | none =>
          rw [ha] at h1
          simp only [combine2] at h1
          exact Or.inr (List.mem_cons.mpr
            (Or.inl (Option.some_inj.mp h1).symm))
        | some a₀ =>
          rw [ha] at h1
          simp only [combine2] at h1
          have hmin : min a₀ b = v := Option.some_inj.mp h1
          rcases min_choice a₀ b with hc | hc
          · refine Or.inl ?_
            rw [← hmin, hc]
          · refine Or.inr (List.mem_cons.mpr (Or.inl ?_))
            rw [← hmin, hc]
      · exact Or.inr (List.mem_cons_of_mem _ h1)
    · intro w hw
      rcases List.mem_cons.mp hw with hw | hw
      · rw [hw]; exact hvb
      · exact h2 w hw
    · intro u hu
      exact (h3 (min u b) (by simp [combine2, hu])).trans (min_le_left _ _)

/-- The `combine2`-fold of a non-empty candidate list returns a value. -/
theorem foldl_combine2_isSome (l : List Int) (a : Option Int)
    (h : l ≠ [] ∨ a.isSome) : (l.foldl combine2 a).isSome := by
  induction l generalizing a with
  | nil =>
    rcases h with h | h
    · exact absurd rfl h
    · exact h
  | cons b l ih =>
    simp only [List.foldl_cons]
    refine ih (combine2 a b) (Or.inr ?_)
    cases a <;> simp [combine2]

/-- C3: in `createIsochrone`, the merged per-destination travel time is
exactly the minimum, over all walk-accessible start stations whose walking
time is within the budget, of walking time plus the transit time found by
an independent Reachability Search run with remaining budget
`totalBudget - walkingTime`; the cross-start minimum merge is performed by
the caller's fold over starts, outside the search. -/
theorem C3_cross_start_minimum_merge (graph : Graph)
    (maxTravelTimeSec : Int) (nearbyStations : List NearbyStation)
    (d : String) (v : Int) :
    jget (reachableStationsMap graph maxTravelTimeSec nearbyStations) d =
        some v ↔
      (v ∈ specStartContributions graph maxTravelTimeSec nearbyStations d ∧
        ∀ w ∈ specStartContributions graph maxTravelTimeSec nearbyStations d,
          v ≤ w) := by
  have hfold := reachableStationsMap_foldl graph maxTravelTimeSec
    nearbyStations [] d
  simp only [reachableStationsMap] at *
  rw [hfold, jget_nil]
  constructor
  · intro h
    obtain ⟨h1, h2, _⟩ := foldl_combine2_some _ none v h
    rcases h1 with h1 | h1
    · cases h1
    · exact ⟨h1, h2⟩
  · rintro ⟨hv, hmin⟩
    have hne : specStartContributions graph maxTravelTimeSec
        nearbyStations d ≠ [] := List.ne_nil_of_mem hv
    have hsome := foldl_combine2_isSome
      (specStartContributions graph maxTravelTimeSec nearbyStations d)
      none (Or.inl hne)
    obtain ⟨w, hw⟩ := Option.isSome_iff_exists.mp hsome
    obtain ⟨h1, h2, _⟩ := foldl_combine2_some _ none w hw
    rcases h1 with h1 | h1
    · cases h1
    · have hvw : v = w := le_antisymm (hmin w h1) (h2 v hv)
      rw [hw, hvw]

theorem C3_cross_start_minimum_merge_witness :
    jget (reachableStationsMap (buildGraph lineNetwork) 700
        [⟨⟨"A", "Station A", 0, 0, false, []⟩, 0, 100⟩]) "B" = some 160 :=
  (C3_cross_start_minimum_merge (buildGraph lineNetwork) 700
    [⟨⟨"A", "Station A", 0, 0, false, []⟩, 0, 100⟩] "B" 160).mpr (by decide)

/-! ## C5 and C10: the no-result paths of `createIsochrone` -/

/-- When every station is out of walking range, no nearby station is
found. -/
theorem findNearestStations_nil (turfDistance : Rat → Rat → Rat → Rat → Rat)
    (officeLat officeLon : Rat) (stations : List Station)
    (maxWalkDistanceMiles : Rat)
    (h : ∀ s ∈ stations,
      ¬ (turfDistance officeLat officeLon s.lat s.lon ≤
        maxWalkDistanceMiles)) :
    findNearestStations turfDistance officeLat officeLon stations
      maxWalkDistanceMiles = [] := by
  have haux : ∀ (l : List Station) (acc : List NearbyStation),
      (∀ s ∈ l, ¬ (turfDistance officeLat officeLon s.lat s.lon ≤
        maxWalkDistanceMiles)) →
      l.foldl (fun acc station =>
        let distance := turfDistance officeLat officeLon station.lat
          station.lon
        if distance ≤ maxWalkDistanceMiles then
          acc ++ [⟨station, distance,
            calculateWalkingTime distance WALKING_SPEED_MPH⟩]
        else acc) acc = acc := by
    intro l
    induction l with
    | nil => intro acc _; rfl
    | cons s l ih =>
      intro acc hl
      simp only [List.foldl_cons]
      rw [if_neg (hl s (List.mem_cons_self _ _))]
      exact ih acc (fun s₀ hs₀ => hl s₀ (List.mem_cons_of_mem _ hs₀))
  simp only [findNearestStations]
  rw [haux stations [] h]
  rfl

/-- C5: `createIsochrone` returns the null no-result value — never an
exception, the embedding being a total function into `Option` — when (1)
no station lies within the maximum walking distance of the origin, (2)
every walk-accessible station's walking time already exceeds the budget,
or (3) the polygon union step yields nothing. -/
theorem C5_isochrone_no_result {Poly : Type}
    (turfDistance : Rat → Rat → Rat → Rat → Rat)
    (turfBuffer : Station → Rat → Poly)
    (turfUnion : List Poly → Option Poly)
    (officeLocation : GeocodeResult) (network : ProcessedNetwork)
    (maxTravelTimeSec : Int)
    (walkDistanceMiles maxWalkDistanceMiles : Rat) :
    ((∀ s ∈ network.stations,
        ¬ (turfDistance officeLocation.latitude officeLocation.longitude
          s.lat s.lon ≤ maxWalkDistanceMiles)) →
      createIsochrone turfDistance turfBuffer turfUnion officeLocation
        network maxTravelTimeSec walkDistanceMiles maxWalkDistanceMiles =
        none) ∧
    ((∀ ns ∈ findNearestStations turfDistance officeLocation.latitude
        officeLocation.longitude network.stations maxWalkDistanceMiles,
        maxTravelTimeSec < ns.walkingTimeSec) →
      createIsochrone turfDistance turfBuffer turfUnion officeLocation
        network maxTravelTimeSec walkDistanceMiles maxWalkDistanceMiles =
        none) ∧
    (unionBuffers turfUnion
        (isochroneBuffers turfBuffer walkDistanceMiles
          (stationLookupMap network)
          ((reachableStationsMap (buildGraph network) maxTravelTimeSec
            (findNearestStations turfDistance officeLocation.latitude
              officeLocation.longitude network.stations
              maxWalkDistanceMiles)).map (fun kv => ⟨kv.1, kv.2⟩))) =
        none →
      createIsochrone turfDistance turfBuffer turfUnion officeLocation
        network maxTravelTimeSec walkDistanceMiles maxWalkDistanceMiles =
        none) := by
  refine ⟨?_, ?_, ?_⟩
  · intro h
    have hnn := findNearestStations_nil turfDistance
      officeLocation.latitude officeLocation.longitude network.stations
      maxWalkDistanceMiles h
    simp only [createIsochrone, hnn]
    rfl
  · intro h
    by_cases h₁ : (findNearestStations turfDistance
        officeLocation.latitude officeLocation.longitude network.stations
        maxWalkDistanceMiles).length = 0
    · simp only [createIsochrone]
      rw [if_pos h₁]
    · have h₂ : ((findNearestStations turfDistance
          officeLocation.latitude officeLocation.longitude
          network.stations maxWalkDistanceMiles).map
          (fun ns => (⟨ns.station.id,
            maxTravelTimeSec - ns.walkingTimeSec⟩ : StartStation))).filter
          (fun s => decide (0 < s.remainingTimeSec)) = [] := by
        refine List.filter_eq_nil_iff.mpr ?_
        intro x hx
        obtain ⟨ns, hns, hxe⟩ := List.mem_map.mp hx
        have hlt := h ns hns
        rw [← hxe]
        simp only [decide_eq_true_eq]
        omega
      simp only [createIsochrone]
      rw [if_neg h₁, if_pos (by rw [h₂]; rfl)]
  · intro h
    by_cases h₁ : (findNearestStations turfDistance
        officeLocation.latitude officeLocation.longitude network.stations
        maxWalkDistanceMiles).length = 0
    · simp only [createIsochrone]
      rw [if_pos h₁]
    · by_cases h₂ : (((findNearestStations turfDistance
          officeLocation.latitude officeLocation.longitude
          network.stations maxWalkDistanceMiles).map
          (fun ns => (⟨ns.station.id,
            maxTravelTimeSec - ns.walkingTimeSec⟩ : StartStation))).filter
          (fun s => decide (0 < s.remainingTimeSec))).length = 0
      · simp only [createIsochrone]
        rw [if_neg h₁, if_pos h₂]
      · by_cases h₃ : ((reachableStationsMap (buildGraph network)
            maxTravelTimeSec (findNearestStations turfDistance
              officeLocation.latitude officeLocation.longitude
              network.stations maxWalkDistanceMiles)).map
            (fun kv => (⟨kv.1, kv.2⟩ : ReachableStation))).length = 0
        · simp only [createIsochrone]
          rw [if_neg h₁, if_neg h₂, if_pos h₃]
        · simp only [createIsochrone]
          rw [if_neg h₁, if_neg h₂, if_neg h₃, h]

theorem C5_isochrone_no_result_witness :
    (∀ s ∈ (⟨[], []⟩ : ProcessedNetwork).stations,
      ¬ ((fun _ _ _ _ => (0 : Rat)) (0 : Rat) (0 : Rat) s.lat s.lon ≤
        (1 / 2 : Rat))) ∧
    createIsochrone (fun _ _ _ _ => (0 : Rat))
      (fun _ _ => () : Station → Rat → Unit) (fun _ => none)
      ⟨0, 0, "office"⟩ ⟨[], []⟩ 1800 (1 / 2) (1 / 2) = none :=
  ⟨by simp, (@C5_isochrone_no_result Unit (fun _ _ _ _ => 0)
    (fun _ _ => ()) (fun _ => none) ⟨0, 0, "office"⟩ ⟨[], []⟩ 1800
    (1 / 2) (1 / 2)).1 (by simp)⟩

/-- C10: when at least one station is within walking range but none has
walking time strictly below the budget, `createIsochrone` returns null —
in particular when the nearest station's walking time exactly equals the
budget (remaining time exactly 0). -/
theorem C10_exact_budget_walk_null {Poly : Type}
    (turfDistance : Rat → Rat → Rat → Rat → Rat)
    (turfBuffer : Station → Rat → Poly)
    (turfUnion : List Poly → Option Poly)
    (officeLocation : GeocodeResult) (network : ProcessedNetwork)
    (maxTravelTimeSec : Int)
    (walkDistanceMiles maxWalkDistanceMiles : Rat)
    (hsome : findNearestStations turfDistance officeLocation.latitude
      officeLocation.longitude network.stations maxWalkDistanceMiles ≠ [])
    (hall : ∀ ns ∈ findNearestStations turfDistance
      officeLocation.latitude officeLocation.longitude network.stations
      maxWalkDistanceMiles, ¬ (ns.walkingTimeSec < maxTravelTimeSec)) :
    createIsochrone turfDistance turfBuffer turfUnion officeLocation
      network maxTravelTimeSec walkDistanceMiles maxWalkDistanceMiles =
      none := by
  have h₁ : ¬ ((findNearestStations turfDistance officeLocation.latitude
      officeLocation.longitude network.stations
      maxWalkDistanceMiles).length = 0) := by
    intro h
    exact hsome (List.length_eq_zero.mp h)
  have h₂ : ((findNearestStations turfDistance officeLocation.latitude
      officeLocation.longitude network.stations maxWalkDistanceMiles).map
      (fun ns => (⟨ns.station.id,
        maxTravelTimeSec - ns.walkingTimeSec⟩ : StartStation))).filter
      (fun s => decide (0 < s.remainingTimeSec)) = [] := by
    refine List.filter_eq_nil_iff.mpr ?_
    intro x hx
    obtain ⟨ns, hns, hxe⟩ := List.mem_map.mp hx
    have hge := hall ns hns
    rw [← hxe]
    simp only [decide_eq_true_eq]
    omega
  simp only [createIsochrone]
  rw [if_neg h₁, if_pos (by rw [h₂]; rfl)]

theorem C10_exact_budget_walk_null_witness :
    (findNearestStations (fun _ _ _ _ => (1 / 2 : Rat)) 0 0
        [⟨"S", "Station S", 0, 0, false, []⟩] (1 / 2) ≠ []) ∧
    (∀ ns ∈ findNearestStations (fun _ _ _ _ => (1 / 2 : Rat)) 0 0
        [⟨"S", "Station S", 0, 0, false, []⟩] (1 / 2),
      ¬ (ns.walkingTimeSec < 600)) ∧
    createIsochrone (fun _ _ _ _ => (1 / 2 : Rat))
      (fun _ _ => () : Station → Rat → Unit) (fun _ => none) ⟨0, 0, "office"⟩
      ⟨[⟨"S", "Station S", 0, 0, false, []⟩], []⟩ 600 (1 / 2) (1 / 2) =
      none := by
  have hwt : calculateWalkingTime (1 / 2) WALKING_SPEED_MPH = 600 := by
    simp only [calculateWalkingTime, WALKING_SPEED_MPH]
    norm_num
  have hwt2 : calculateWalkingTime (2⁻¹ : Rat) WALKING_SPEED_MPH = 600 := by
    simp only [calculateWalkingTime, WALKING_SPEED_MPH]
    norm_num
  have hfn : findNearestStations (fun _ _ _ _ => (1 / 2 : Rat)) 0 0
      [⟨"S", "Station S", 0, 0, false, []⟩] (1 / 2) =
      [⟨⟨"S", "Station S", 0, 0, false, []⟩, 1 / 2, 600⟩] := by
    simp only [findNearestStations, List.foldl_cons, List.foldl_nil]
    rw [if_pos (by norm_num)]
    simp [sortByDistance, insertByDistance, hwt, hwt2]
  refine ⟨?_, ?_, ?_⟩
  · rw [hfn]
    simp
  · rw [hfn]
    intro ns hns
    rw [List.mem_singleton.mp hns]
    decide
  · refine @C10_exact_budget_walk_null Unit
      (fun _ _ _ _ => (1 / 2)) (fun _ _ => ()) (fun _ => none)
      ⟨0, 0, "office"⟩ ⟨[⟨"S", "Station S", 0, 0, false, []⟩], []⟩ 600
      (1 / 2) (1 / 2) ?_ ?_
    · show findNearestStations (fun _ _ _ _ => (1 / 2 : Rat)) 0 0
        [⟨"S", "Station S", 0, 0, false, []⟩] (1 / 2) ≠ []
      rw [hfn]
      simp
    · show ∀ ns ∈ findNearestStations (fun _ _ _ _ => (1 / 2 : Rat)) 0 0
        [⟨"S", "Station S", 0, 0, false, []⟩] (1 / 2),
        ¬ (ns.walkingTimeSec < 600)
      rw [hfn]
      intro ns hns
      rw [List.mem_singleton.mp hns]
      decide

/-! ## GTFS preprocessing (`src/scripts/preprocess-gtfs.ts`)

JavaScript `NaN` (from `Number`/`parseInt` on non-numeric strings) is
modelled as `Option` failure (`none`); NaN propagates through arithmetic
as `Option.bind` does, and the range guard lets it pass exactly as
`NaN < 0 || NaN > 3600` is false. -/

/-- JS `split` with a single-character separator, over the character
list (the `String.Pos`-based library functions do not reduce in the
kernel). -/
def splitChars (sep : Char) (s : String) : List String :=
  let st := s.data.foldl
    (fun (st : List String × List Char) c =>
      if c = sep then (st.1 ++ [String.mk st.2], []) else (st.1, st.2 ++ [c]))
    ([], [])
  st.1 ++ [String.mk st.2]

/-- JS `trim`: strip leading and trailing whitespace. -/
def jsTrim (s : String) : String :=
  String.mk
    (((s.data.dropWhile Char.isWhitespace).reverse.dropWhile
      Char.isWhitespace).reverse)

/-- One line of `parseCSV`: split on commas, honouring double-quoted
fields that may contain commas. -/
def parseCSVLine (line : String) : List String :=
  let st := line.data.foldl
    (fun (st : List String × List Char × Bool) char =>
      if char = '"' then (st.1, st.2.1, !st.2.2)
      else if char = ',' ∧ st.2.2 = false then
        (st.1 ++ [String.mk st.2.1], [], st.2.2)
      else (st.1, st.2.1 ++ [char], st.2.2))
    ([], [], false)
  st.1 ++ [String.mk st.2.1]

/-- `parseCSV`: trim the content, split into lines, parse each line. -/
def parseCSV (content : String) : List (List String) :=
  (splitChars '\n' (jsTrim content)).map parseCSVLine

/-- JS `Number(s)` on the strings occurring in GTFS time fields: the empty
string is 0, digit strings parse, anything else is NaN (`none`). -/
def jsNumber (s : String) : Option Int :=
  if s = "" then some 0
  else if s.data.all Char.isDigit then
    some ((s.data.foldl (fun n c => n * 10 + (c.toNat - '0'.toNat)) 0 :
      Nat) : Int)
  else none

/-- `timeToSeconds`: split `HH:MM:SS` on `:`, convert the first three
parts with `Number`, and combine; any NaN part makes the result NaN. -/
def timeToSeconds (timeStr : String) : Option Int :=
  match (splitChars ':' timeStr).map jsNumber with
  | some hours :: some minutes :: some seconds :: _ =>
    some (hours * 3600 + minutes * 60 + seconds)
  | _ => none

/-- Stable ascending insertion for integers (JS `sort((a, b) => a - b)`). -/
def insertInt (x : Int) : List Int → List Int
  | [] => [x]
  | y :: ys => if y < x then y :: insertInt x ys else x :: y :: ys

def sortInts (l : List Int) : List Int := l.foldr insertInt []

/-- `median` from `preprocess-gtfs.ts` (its call sites only ever pass
integer travel times, so the input is `List Int`): sort ascending, take
the middle element, averaging the two central values for even lengths. -/
def median (numbers : List Int) : Rat :=
  let sorted := sortInts numbers
  let mid := sorted.length / 2
  if sorted.length % 2 = 0 then
    (((sorted.getD (mid - 1) 0) + (sorted.getD mid 0) : Int) : Rat) / 2
  else ((sorted.getD mid 0 : Int) : Rat)

/-- `parseInt(s, 10)` on GTFS sequence fields: leading digits, NaN
(`none`) when the string does not start with a digit. -/
def parseIntJs (s : String) : Option Int :=
  let digits := s.data.takeWhile Char.isDigit
  if digits.isEmpty then none
  else some ((digits.foldl (fun n c => n * 10 + (c.toNat - '0'.toNat)) 0 :
    Nat) : Int)

/-- A raw `stop_times` row as consumed by the edge pass. -/
structure StopTimeRow where
  tripId : String
  stopId : String
  arrivalTime : String
  departureTime : String
  stopSequence : String
deriving DecidableEq

/-- A grouped per-trip stop time (sequence already `parseInt`ed). -/
structure TripStop where
  stopId : String
  arrivalTime : String
  departureTime : String
  sequence : Option Int
deriving DecidableEq

/-- Group one `stop_times` row into its trip's list (sequence
`parseInt`ed as in the source). -/
def groupStep (m : List (String × List TripStop)) (row : StopTimeRow) :
    List (String × List TripStop) :=
  let entry : TripStop := ⟨row.stopId, row.arrivalTime, row.departureTime,
    parseIntJs row.stopSequence⟩
  match jget m row.tripId with
  | some l => jset m row.tripId (l ++ [entry])
  | none => jset m row.tripId [entry]

/-- Group `stop_times` rows by trip id, in row order. -/
def groupByTrip (rows : List StopTimeRow) : List (String × List TripStop) :=
  rows.foldl groupStep []

/-- Stable ascending insertion by sequence number.  When a sequence failed
to parse the JS comparator returns NaN and the sort order is unspecified;
the embedding fixes that unspecified order by treating it as 0. -/
def insertBySeq (x : TripStop) : List TripStop → List TripStop
  | [] => [x]
  | y :: ys =>
    if (y.sequence.getD 0) < (x.sequence.getD 0) then y :: insertBySeq x ys
    else x :: y :: ys

def sortBySeq (l : List TripStop) : List TripStop := l.foldr insertBySeq []

/-- JS `a || b` for the parent-station fallback: a missing or empty parent
reference falls back to the stop's own id. -/
def jsOr (a : Option String) (b : String) : String :=
  match a with
  | some s => if s = "" then b else s
  | none => b

/-- The overnight-rollover correction:
`travelTime < 0 ? travelTime + 86400 : travelTime`. -/
def adjustTravelTime (travelTime : Int) : Int :=
  if travelTime < 0 then travelTime + 86400 else travelTime

/-- Process one consecutive-stop pair of a trip: resolve parent stations,
skip an intra-station pair, compute the corrected travel time, skip
implausible values (negative or above one hour — NaN passes, as in JS),
and append the surviving observation to its `(from|to|route)` key. -/
def pairStep (stopToParent : List (String × String)) (routeId : String)
    (acc : List (String × List (Option Int))) (pair : TripStop × TripStop) :
    List (String × List (Option Int)) :=
  let fromStop := pair.1
  let toStop := pair.2
  let fromParentId := jsOr (jget stopToParent fromStop.stopId)
    fromStop.stopId
  let toParentId := jsOr (jget stopToParent toStop.stopId) toStop.stopId
  if fromParentId = toParentId then acc
  else
    let travelTime := (timeToSeconds toStop.arrivalTime).bind
      (fun toTime => (timeToSeconds fromStop.departureTime).map
        (fun fromTime => toTime - fromTime))
    let adjusted := travelTime.map adjustTravelTime
    if adjusted.any (fun v => decide (v < 0) || decide (3600 < v)) then acc
    else
      let edgeKey := fromParentId ++ "|" ++ toParentId ++ "|" ++ routeId
      match jget acc edgeKey with
      | some l => jset acc edgeKey (l ++ [adjusted])
      | none => jset acc edgeKey [adjusted]

/-- Process the consecutive-stop pairs of one sorted trip. -/
def processTripPairs (stopToParent : List (String × String))
    (routeId : String) (stops : List TripStop)
    (acc : List (String × List (Option Int))) :
    List (String × List (Option Int)) :=
  (stops.zip stops.tail).foldl (pairStep stopToParent routeId) acc

/-- Process one trip of the edge-observation pass: sort its stops by
sequence and, when its route id resolves to a non-falsy value, collect
the consecutive-pair travel times. -/
def tripStep (stopToParent tripToRoute : List (String × String))
    (acc : List (String × List (Option Int)))
    (trip : String × List TripStop) : List (String × List (Option Int)) :=
  let stops := sortBySeq trip.2
  match jget tripToRoute trip.1 with
  | some routeId =>
    if routeId = "" then acc
    else processTripPairs stopToParent routeId stops acc
  | none => acc

/-- The per-trip edge-observation pass: collect corrected travel times
per `(from|to|route)` key over all trips. -/
def collectTripEdges (stopToParent tripToRoute : List (String × String))
    (tripStopTimes : List (String × List TripStop)) :
    List (String × List (Option Int)) :=
  tripStopTimes.foldl (tripStep stopToParent tripToRoute) []

/-- A preprocessing output edge.  `travelTimeSec` is `Option Int`: `none`
models the NaN that JS produces when an unparseable time survives to
aggregation (where the sort comparator's behaviour is unspecified). -/
structure RawEdge where
  fromId : String
  toId : String
  travelTimeSec : Option Int
  routeId : String
deriving DecidableEq

/-- Median of the collected observations: when every observation is a
number, the median of those integers; otherwise the unspecified NaN
aggregate (`none`). -/
def medianOfObs (obs : List (Option Int)) : Option Rat :=
  if obs.all Option.isSome then some (median (obs.filterMap id)) else none

/-- The aggregation pass: split each key back into its three id parts and
emit one edge per key with the rounded median travel time. -/
def aggregateEdges (edgeTravelTimes : List (String × List (Option Int))) :
    List RawEdge :=
  edgeTravelTimes.foldl
    (fun edges kv =>
      let parts := splitChars '|' kv.1
      edges ++ [⟨parts.getD 0 "", parts.getD 1 "",
        (medianOfObs kv.2).map (fun m => round m), parts.getD 2 ""⟩])
    []

/-- The whole edge pipeline of `preprocessGTFS` (third pass plus
aggregation), from raw stop-time rows and the two lookup maps. -/
def deriveEdges (stopToParent tripToRoute : List (String × String))
    (stopTimeRows : List StopTimeRow) : List RawEdge :=
  aggregateEdges
    (collectTripEdges stopToParent tripToRoute (groupByTrip stopTimeRows))

/-! ## C6: edge travel-time bounds -/

theorem mem_insertInt (x y : Int) (l : List Int) :
    x ∈ insertInt y l ↔ x = y ∨ x ∈ l := by
  induction l with
  | nil => simp [insertInt]
  | cons hd tl ih =>
    by_cases h : hd < y
    · simp only [insertInt, if_pos h, List.mem_cons, ih]
      tauto
    · simp only [insertInt, if_neg h, List.mem_cons]

theorem mem_sortInts (x : Int) (l : List Int) :
    x ∈ sortInts l ↔ x ∈ l := by
  induction l with
  | nil => simp [sortInts]
  | cons hd tl ih =>
    simp only [sortInts, List.foldr_cons, List.mem_cons]
    rw [mem_insertInt]
    simp only [sortInts] at ih
    rw [ih]

theorem length_insertInt (y : Int) (l : List Int) :
    (insertInt y l).length = l.length + 1 := by
  induction l with
  | nil => simp [insertInt]
  | cons hd tl ih =>
    by_cases h : hd < y <;> simp [insertInt, h, ih]

theorem length_sortInts (l : List Int) :
    (sortInts l).length = l.length := by
  induction l with
  | nil => simp [sortInts]
  | cons hd tl ih =>
    simp only [sortInts, List.foldr_cons, length_insertInt]
    simp only [sortInts] at ih
    simp [ih]

theorem getD_mem_of_lt {α : Type} {l : List α} {n : Nat}
    (h : n < l.length) (d : α) : l.getD n d ∈ l := by
  induction l generalizing n with
  | nil => simp at h
  | cons hd tl ih =>
    cases n with
    | zero => simp [List.getD]
    | succ n =>
      simp only [List.length_cons, Nat.succ_lt_succ_iff] at h
      exact List.mem_cons_of_mem _ (ih h)

/-- The median of a non-empty list of values in `[0, 3600]` lies in
`[0, 3600]`. -/
theorem median_bounds (l : List Int) (hne : l ≠ [])
    (hb : ∀ x ∈ l, 0 ≤ x ∧ x ≤ 3600) :
    0 ≤ median l ∧ median l ≤ 3600 := by
  have hmem : ∀ x ∈ sortInts l, 0 ≤ x ∧ x ≤ 3600 := fun x hx =>
    hb x ((mem_sortInts x l).mp hx)
  have hlen : (sortInts l).length = l.length := length_sortInts l
  have hpos : 0 < (sortInts l).length := by
    rw [hlen]
    exact List.length_pos.mpr hne
  have hmid : (sortInts l).length / 2 < (sortInts l).length :=
    Nat.div_lt_self hpos (by norm_num)
  simp only [median]
  by_cases he : (sortInts l).length % 2 = 0
  · rw [if_pos he]
    have hmid1 : (sortInts l).length / 2 - 1 < (sortInts l).length := by
      omega
    obtain ⟨ha0, ha1⟩ := hmem _ (getD_mem_of_lt hmid1 0)
    obtain ⟨hb0, hb1⟩ := hmem _ (getD_mem_of_lt hmid 0)
    have ha0q : (0 : Rat) ≤
        (((sortInts l).getD ((sortInts l).length / 2 - 1) 0 : Int) : Rat) := by
      exact_mod_cast ha0
    have ha1q : (((sortInts l).getD ((sortInts l).length / 2 - 1) 0 : Int) :
        Rat) ≤ 3600 := by exact_mod_cast ha1
    have hb0q : (0 : Rat) ≤
        (((sortInts l).getD ((sortInts l).length / 2) 0 : Int) : Rat) := by
      exact_mod_cast hb0
    have hb1q : (((sortInts l).getD ((sortInts l).length / 2) 0 : Int) :
        Rat) ≤ 3600 := by exact_mod_cast hb1
    constructor
    · rw [le_div_iff₀ (by norm_num : (0:Rat) < 2)]
      push_cast
      push_cast at ha0q hb0q
      linarith
    · rw [div_le_iff₀ (by norm_num : (0:Rat) < 2)]
      push_cast
      push_cast at ha1q hb1q
      linarith
  · rw [if_neg he]
    obtain ⟨h0, h1⟩ := hmem _ (getD_mem_of_lt hmid 0)
    constructor
    · exact_mod_cast h0
    · exact_mod_cast h1

/-- Rounding keeps a value of `[0, 3600]` in `[0, 3600]`. -/
theorem round_bounds (q : Rat) (h0 : 0 ≤ q) (h1 : q ≤ 3600) :
    0 ≤ round q ∧ round q ≤ 3600 := by
  constructor
  · have h : round (0 : Rat) ≤ round q := by
      rw [round_eq, round_eq]
      exact Int.floor_le_floor (by linarith)
    simpa using h
  · have h : round q ≤ round (3600 : Rat) := by
      rw [round_eq, round_eq]
      exact Int.floor_le_floor (by linarith)
    have h36 : round (3600 : Rat) = 3600 := by norm_num
    rw [h36] at h
    exact h

/-- The per-key observation invariant: every collection is non-empty and
holds only in-range integer observations. -/
def ObsInv (acc : List (String × List (Option Int))) : Prop :=
  ∀ kv ∈ acc, kv.2 ≠ [] ∧
    ∀ ob ∈ kv.2, ∃ v, ob = some v ∧ 0 ≤ v ∧ v ≤ 3600

/-- Pushing an in-range observation onto a key's collection preserves the
observation invariant. -/
theorem obs_push_inv (acc : List (String × List (Option Int)))
    (key : String) (x : Int) (hx : 0 ≤ x ∧ x ≤ 3600) (hacc : ObsInv acc) :
    ObsInv (match jget acc key with
      | some l => jset acc key (l ++ [some x])
      | none => jset acc key [some x]) := by
  rcases hjg : jget acc key with _ | l
  · intro kv hkv
    rcases jset_mem hkv with h | h
    · exact hacc kv h
    · rw [h]
      exact ⟨by simp, fun ob hob =>
        ⟨x, List.mem_singleton.mp hob, hx.1, hx.2⟩⟩
  · intro kv hkv
    rcases jset_mem hkv with h | h
    · exact hacc kv h
    · obtain ⟨_, hl2⟩ := hacc (key, l) (mem_of_jget_eq hjg)
      rw [h]
      refine ⟨by simp, fun ob hob => ?_⟩
      rcases List.mem_append.mp hob with hob | hob
      · exact hl2 ob hob
      · exact ⟨x, List.mem_singleton.mp hob, hx.1, hx.2⟩

/-- One pair step preserves the observation invariant when the pair's
times parse. -/
theorem pairStep_inv (stopToParent : List (String × String))
    (routeId : String) (acc : List (String × List (Option Int)))
    (pair : TripStop × TripStop)
    (harr : (timeToSeconds pair.2.arrivalTime).isSome)
    (hdep : (timeToSeconds pair.1.departureTime).isSome)
    (hacc : ObsInv acc) :
    ObsInv (pairStep stopToParent routeId acc pair) := by
  obtain ⟨ta, hta⟩ := Option.isSome_iff_exists.mp harr
  obtain ⟨tf, htf⟩ := Option.isSome_iff_exists.mp hdep
  simp only [pairStep, hta, htf, Option.some_bind, Option.map_some',
    Option.any_some]
  by_cases hsame : jsOr (jget stopToParent pair.1.stopId) pair.1.stopId =
      jsOr (jget stopToParent pair.2.stopId) pair.2.stopId
  · rw [if_pos hsame]
    exact hacc
  · rw [if_neg hsame]
    set x := adjustTravelTime (ta - tf) with hxdef
    by_cases hg : (decide (x < 0) || decide (3600 < x)) = true
    · rw [if_pos hg]
      exact hacc
    · rw [if_neg hg]
      have hxb : 0 ≤ x ∧ x ≤ 3600 := by
        rw [Bool.or_eq_true, decide_eq_true_eq, decide_eq_true_eq] at hg
        push_neg at hg
        omega
      exact obs_push_inv acc _ x hxb hacc

/-- Pair-loop folding preserves the observation invariant. -/
theorem processTripPairs_inv (stopToParent : List (String × String))
    (routeId : String) (stops : List TripStop)
    (acc : List (String × List (Option Int)))
    (hstops : ∀ ts ∈ stops, (timeToSeconds ts.arrivalTime).isSome ∧
      (timeToSeconds ts.departureTime).isSome)
    (hacc : ObsInv acc) :
    ObsInv (processTripPairs stopToParent routeId stops acc) := by
  have hpairs : ∀ p ∈ stops.zip stops.tail,
      (timeToSeconds p.2.arrivalTime).isSome ∧
      (timeToSeconds p.1.departureTime).isSome := by
    intro p hp
    obtain ⟨h1, h2⟩ := List.of_mem_zip hp
    exact ⟨(hstops p.2 (List.mem_of_mem_tail h2)).1, (hstops p.1 h1).2⟩
  simp only [processTripPairs]
  have haux : ∀ (ps : List (TripStop × TripStop))
      (acc : List (String × List (Option Int))),
      (∀ p ∈ ps, (timeToSeconds p.2.arrivalTime).isSome ∧
        (timeToSeconds p.1.departureTime).isSome) →
      ObsInv acc →
      ObsInv (ps.foldl (pairStep stopToParent routeId) acc) := by
    intro ps
    induction ps with
    | nil => intro acc _ hacc; exact hacc
    | cons p ps ih =>
      intro acc hps hacc
      simp only [List.foldl_cons]
      refine ih _ (fun q hq => hps q (List.mem_cons_of_mem _ hq)) ?_
      exact pairStep_inv stopToParent routeId acc p
        (hps p (List.mem_cons_self _ _)).1
        (hps p (List.mem_cons_self _ _)).2 hacc
  exact haux _ acc hpairs hacc

theorem mem_insertBySeq (x y : TripStop) (l : List TripStop) :
    x ∈ insertBySeq y l ↔ x = y ∨ x ∈ l := by
  induction l with
  | nil => simp [insertBySeq]
  | cons hd tl ih =>
    by_cases h : (hd.sequence.getD 0) < (y.sequence.getD 0)
    · simp only [insertBySeq, if_pos h, List.mem_cons, ih]
      tauto
    · simp only [insertBySeq, if_neg h, List.mem_cons]

theorem mem_sortBySeq (x : TripStop) (l : List TripStop) :
    x ∈ sortBySeq l ↔ x ∈ l := by
  induction l with
  | nil => simp [sortBySeq]
  | cons hd tl ih =>
    simp only [sortBySeq, List.foldr_cons, List.mem_cons]
    rw [mem_insertBySeq]
    simp only [sortBySeq] at ih
    rw [ih]

/-- Every grouped stop satisfies any property satisfied by the entries of
the rows it was built from. -/
theorem groupByTrip_stops (rows : List StopTimeRow) (P : TripStop → Prop)
    (hrows : ∀ row ∈ rows, P ⟨row.stopId, row.arrivalTime,
      row.departureTime, parseIntJs row.stopSequence⟩) :
    ∀ kv ∈ groupByTrip rows, ∀ ts ∈ kv.2, P ts := by
  have hstep : ∀ (m : List (String × List TripStop)) (row : StopTimeRow),
      (∀ kv ∈ m, ∀ ts ∈ kv.2, P ts) →
      P ⟨row.stopId, row.arrivalTime, row.departureTime,
        parseIntJs row.stopSequence⟩ →
      ∀ kv ∈ groupStep m row, ∀ ts ∈ kv.2, P ts := by
    intro m row hm hrow kv hkv ts hts
    rcases hjg : jget m row.tripId with _ | l
    · have heq : groupStep m row = jset m row.tripId
          [⟨row.stopId, row.arrivalTime, row.departureTime,
            parseIntJs row.stopSequence⟩] := by
        simp only [groupStep, hjg]
      rw [heq] at hkv
      rcases jset_mem hkv with h | h
      · exact hm kv h ts hts
      · rw [h] at hts
        rw [List.mem_singleton.mp hts]
        exact hrow
    · have heq : groupStep m row = jset m row.tripId
          (l ++ [⟨row.stopId, row.arrivalTime, row.departureTime,
            parseIntJs row.stopSequence⟩]) := by
        simp only [groupStep, hjg]
      rw [heq] at hkv
      rcases jset_mem hkv with h | h
      · exact hm kv h ts hts
      · rw [h] at hts
        rcases List.mem_append.mp hts with h2 | h2
        · exact hm (row.tripId, l) (mem_of_jget_eq hjg) ts h2
        · rw [List.mem_singleton.mp h2]
          exact hrow
  have haux : ∀ (rs : List StopTimeRow) (m : List (String × List TripStop)),
      (∀ kv ∈ m, ∀ ts ∈ kv.2, P ts) →
      (∀ row ∈ rs, P ⟨row.stopId, row.arrivalTime, row.departureTime,
        parseIntJs row.stopSequence⟩) →
      ∀ kv ∈ rs.foldl groupStep m, ∀ ts ∈ kv.2, P ts := by
    intro rs
    induction rs with
    | nil => intro m hm _; exact hm
    | cons row rs ih =>
      intro m hm hrs
      simp only [List.foldl_cons]
      refine ih (groupStep m row)
        (hstep m row hm (hrs row (List.mem_cons_self _ _)))
        (fun r hr => hrs r (List.mem_cons_of_mem _ hr))
  exact haux rows [] (by simp) hrows

/-- The whole collection pass establishes the observation invariant when
every grouped stop's times parse. -/
theorem collectTripEdges_inv (stopToParent tripToRoute :
    List (String × String)) (tripStopTimes : List (String × List TripStop))
    (h : ∀ kv ∈ tripStopTimes, ∀ ts ∈ kv.2,
      (timeToSeconds ts.arrivalTime).isSome ∧
      (timeToSeconds ts.departureTime).isSome) :
    ObsInv (collectTripEdges stopToParent tripToRoute tripStopTimes) := by
  have hstep : ∀ acc trip, trip ∈ tripStopTimes → ObsInv acc →
      ObsInv (tripStep stopToParent tripToRoute acc trip) := by
    intro acc trip htrip hacc
    rcases hjg : jget tripToRoute trip.1 with _ | routeId
    · have heq : tripStep stopToParent tripToRoute acc trip = acc := by
        simp only [tripStep, hjg]
      rw [heq]
      exact hacc
    · by_cases hrid : routeId = ""
      · have heq : tripStep stopToParent tripToRoute acc trip = acc := by
          simp only [tripStep, hjg, if_pos hrid]
        rw [heq]
        exact hacc
      · have heq : tripStep stopToParent tripToRoute acc trip =
            processTripPairs stopToParent routeId (sortBySeq trip.2) acc := by
          simp only [tripStep, hjg, if_neg hrid]
        rw [heq]
        refine processTripPairs_inv stopToParent routeId _ acc ?_ hacc
        intro ts hts
        exact h trip htrip ts ((mem_sortBySeq ts trip.2).mp hts)
  have haux : ∀ (ts : List (String × List TripStop)) (acc),
      (∀ kv ∈ ts, kv ∈ tripStopTimes) → ObsInv acc →
      ObsInv (ts.foldl (tripStep stopToParent tripToRoute) acc) := by
    intro ts
    induction ts with
    | nil => intro acc _ hacc; exact hacc
    | cons trip ts ih =>
      intro acc hts hacc
      simp only [List.foldl_cons]
      exact ih _ (fun kv hkv => hts kv (List.mem_cons_of_mem _ hkv))
        (hstep acc trip (hts trip (List.mem_cons_self _ _)) hacc)
  exact haux tripStopTimes [] (fun kv hkv => hkv) (by intro kv h; cases h)

/-- Every aggregated edge's travel time is the rounded median of the
collected observations of some key. -/
theorem aggregateEdges_mem (m : List (String × List (Option Int)))
    (e : RawEdge) (he : e ∈ aggregateEdges m) :
    ∃ kv ∈ m, e.travelTimeSec = (medianOfObs kv.2).map (fun x => round x) := by
  have haux : ∀ (ms : List (String × List (Option Int)))
      (acc : List RawEdge), e ∈ ms.foldl
        (fun edges kv =>
          let parts := splitChars '|' kv.1
          edges ++ [⟨parts.getD 0 "", parts.getD 1 "",
            (medianOfObs kv.2).map (fun m => round m), parts.getD 2 ""⟩])
        acc →
      e ∈ acc ∨ ∃ kv ∈ ms,
        e.travelTimeSec = (medianOfObs kv.2).map (fun x => round x) := by
    intro ms
    induction ms with
    | nil => intro acc h; exact Or.inl h
    | cons kv ms ih =>
      intro acc h
      simp only [List.foldl_cons] at h
      rcases ih _ h with h1 | ⟨kv₀, hkv₀, he₀⟩
      · rcases List.mem_append.mp h1 with h2 | h2
        · exact Or.inl h2
        · refine Or.inr ⟨kv, List.mem_cons_self _ _, ?_⟩
          rw [List.mem_singleton.mp h2]
      · exact Or.inr ⟨kv₀, List.mem_cons_of_mem _ hkv₀, he₀⟩
  rcases haux m [] he with h | h
  · cases h
  · exact h

/-- C6: for every feed whose stop-time fields parse, every edge emitted by
the preprocessing pipeline has a numeric travel time within `[0, 3600]`;
moreover, an out-of-range observation is discarded — a lone above-one-hour
pair yields no edge at all rather than a clamped one — and so is a pair
whose stops resolve to the same parent station. -/
theorem C6_edge_travel_time_bounds :
    (∀ (stopToParent tripToRoute : List (String × String))
      (rows : List StopTimeRow),
      (∀ row ∈ rows, (timeToSeconds row.arrivalTime).isSome ∧
        (timeToSeconds row.departureTime).isSome) →
      ∀ e ∈ deriveEdges stopToParent tripToRoute rows,
        ∃ v, e.travelTimeSec = some v ∧ 0 ≤ v ∧ v ≤ 3600) ∧
    deriveEdges [] [("t1", "r1")]
      [⟨"t1", "A", "00:00:00", "00:00:00", "1"⟩,
       ⟨"t1", "B", "02:00:00", "02:00:00", "2"⟩] = [] ∧
    deriveEdges [("A", "P"), ("B", "P")] [("t1", "r1")]
      [⟨"t1", "A", "00:00:00", "00:00:00", "1"⟩,
       ⟨"t1", "B", "00:01:40", "00:01:40", "2"⟩] = [] := by
  refine ⟨?_, by decide, by decide⟩
  intro stopToParent tripToRoute rows hvalid e he
  have hobs : ObsInv (collectTripEdges stopToParent tripToRoute
      (groupByTrip rows)) := by
    refine collectTripEdges_inv stopToParent tripToRoute _ ?_
    exact groupByTrip_stops rows
      (fun ts => (timeToSeconds ts.arrivalTime).isSome ∧
        (timeToSeconds ts.departureTime).isSome)
      (fun row hrow => hvalid row hrow)
  obtain ⟨kv, hkv, hte⟩ := aggregateEdges_mem _ e he
  obtain ⟨hne, hb⟩ := hobs kv hkv
  have hall : kv.2.all Option.isSome = true := by
    rw [List.all_eq_true]
    intro ob hob
    obtain ⟨v, hv, _⟩ := hb ob hob
    rw [hv]
    rfl
  have hmed : medianOfObs kv.2 = some (median (kv.2.filterMap id)) := by
    simp only [medianOfObs, hall, if_true]
  have hvals : ∀ x ∈ kv.2.filterMap id, 0 ≤ x ∧ x ≤ 3600 := by
    intro x hx
    obtain ⟨ob, hob, hid⟩ := List.mem_filterMap.mp hx
    obtain ⟨v, hv, h0, h1⟩ := hb ob hob
    have : x = v := by
      rw [hv] at hid
      exact (Option.some_inj.mp hid).symm
    rw [this]
    exact ⟨h0, h1⟩
  have hvne : kv.2.filterMap id ≠ [] := by
    obtain ⟨ob, hob⟩ := List.exists_mem_of_ne_nil kv.2 hne
    obtain ⟨v, hv, _⟩ := hb ob hob
    refine List.ne_nil_of_mem (a := v) ?_
    exact List.mem_filterMap.mpr ⟨ob, hob, by rw [hv]; rfl⟩
  obtain ⟨hm0, hm1⟩ := median_bounds _ hvne hvals
  obtain ⟨hr0, hr1⟩ := round_bounds _ hm0 hm1
  exact ⟨round (median (kv.2.filterMap id)),
    by rw [hte, hmed]; rfl, hr0, hr1⟩

/-- The length of the aggregation output equals the number of keys. -/
theorem aggregateEdges_length (m : List (String × List (Option Int))) :
    (aggregateEdges m).length = m.length := by
  have haux : ∀ {α β : Type} (g : β → α) (l : List β) (acc : List α),
      (l.foldl (fun acc b => acc ++ [g b]) acc).length =
        acc.length + l.length := by
    intro α β g l
    induction l with
    | nil => intro acc; simp
    | cons b l ih =>
      intro acc
      rw [List.foldl_cons, ih]
      simp only [List.length_append, List.length_cons, List.length_nil]
      omega
  exact (haux (fun kv : String × List (Option Int) =>
    (⟨(splitChars '|' kv.1).getD 0 "", (splitChars '|' kv.1).getD 1 "",
      (medianOfObs kv.2).map (fun m => round m),
      (splitChars '|' kv.1).getD 2 ""⟩ : RawEdge)) m []).trans (by simp)

/-- The five-trip sample feed whose two edge keys collect the travel
times `[100, 100, 300]` and `[100, 200]`. -/
def medianSampleRows : List StopTimeRow :=
  [⟨"t1", "A", "00:00:00", "00:00:00", "1"⟩,
   ⟨"t1", "B", "00:01:40", "00:01:40", "2"⟩,
   ⟨"t2", "A", "00:00:00", "00:00:00", "1"⟩,
   ⟨"t2", "B", "00:01:40", "00:01:40", "2"⟩,
   ⟨"t3", "A", "00:00:00", "00:00:00", "1"⟩,
   ⟨"t3", "B", "00:05:00", "00:05:00", "2"⟩,
   ⟨"t4", "C", "00:00:00", "00:00:00", "1"⟩,
   ⟨"t4", "D", "00:01:40", "00:01:40", "2"⟩,
   ⟨"t5", "C", "00:00:00", "00:00:00", "1"⟩,
   ⟨"t5", "D", "00:03:20", "00:03:20", "2"⟩]

def medianSampleRoutes : List (String × String) :=
  [("t1", "r1"), ("t2", "r1"), ("t3", "r1"), ("t4", "r2"), ("t5", "r2")]

/-- C7: edge aggregation takes the statistical median per
`(from, to, route)` key — averaging the two central values for even
counts — rounds it to the nearest second, and emits exactly one edge per
key: `[100, 100, 300]` aggregates to 100 and `[100, 200]` to 150. -/
theorem C7_median_aggregation :
    median [100, 100, 300] = 100 ∧
    median [100, 200] = 150 ∧
    (∀ m : List (String × List (Option Int)),
      (aggregateEdges m).length = m.length) ∧
    deriveEdges [] medianSampleRoutes medianSampleRows =
      [⟨"A", "B", some 100, "r1"⟩, ⟨"C", "D", some 150, "r2"⟩] := by
  have h1 : median [100, 100, 300] = 100 := by
    have hs : sortInts [100, 100, 300] = [100, 100, 300] := by decide
    simp only [median, hs]
    rw [if_neg (by decide)]
    norm_num [List.getD]
  have h2 : median [100, 200] = 150 := by
    have hs : sortInts [100, 200] = [100, 200] := by decide
    simp only [median, hs]
    rw [if_pos (by decide)]
    norm_num [List.getD]
  refine ⟨h1, h2, aggregateEdges_length, ?_⟩
  have hc : collectTripEdges [] medianSampleRoutes
      (groupByTrip medianSampleRows) =
      [("A|B|r1", [some 100, some 100, some 300]),
       ("C|D|r2", [some 100, some 200])] := by decide
  have hsplit1 : splitChars '|' "A|B|r1" = ["A", "B", "r1"] := by decide
  have hsplit2 : splitChars '|' "C|D|r2" = ["C", "D", "r2"] := by decide
  have hml : medianOfObs [some 100, some 100, some 300] =
      some (median [100, 100, 300]) := by simp [medianOfObs]
  have hm2 : medianOfObs [some 100, some 200] =
      some (median [100, 200]) := by simp [medianOfObs]
  simp only [deriveEdges, hc, aggregateEdges, List.foldl_cons,
    List.foldl_nil, hsplit1, hsplit2, hml, hm2, Option.map_some', h1, h2]
  norm_num [List.getD]

/-- C8: a negative raw travel time between consecutive stops is corrected
by adding 86400 s (service-day rollover): departure 23:59:50 with next-day
arrival 00:00:20 yields exactly 30 s, never a negative value, and the
pipeline emits that edge with travel time 30. -/
theorem C8_overnight_correction :
    timeToSeconds "23:59:50" = some 86390 ∧
    timeToSeconds "00:00:20" = some 20 ∧
    adjustTravelTime (20 - 86390) = 30 ∧
    (∀ travelTime : Int, travelTime < 0 →
      adjustTravelTime travelTime = travelTime + 86400) ∧
    deriveEdges [] [("t1", "r1")]
      [⟨"t1", "A", "23:59:50", "23:59:50", "1"⟩,
       ⟨"t1", "B", "00:00:20", "00:00:20", "2"⟩] =
      [⟨"A", "B", some 30, "r1"⟩] := by
  refine ⟨by decide, by decide, by decide, ?_, ?_⟩
  · intro travelTime ht
    simp only [adjustTravelTime, if_pos ht]
  · have hc : collectTripEdges [] [("t1", "r1")]
        (groupByTrip [⟨"t1", "A", "23:59:50", "23:59:50", "1"⟩,
          ⟨"t1", "B", "00:00:20", "00:00:20", "2"⟩]) =
        [("A|B|r1", [some 30])] := by decide
    have hsplit : splitChars '|' "A|B|r1" = ["A", "B", "r1"] := by decide
    have hmed : median [30] = 30 := by
      have hs : sortInts [30] = [30] := by decide
      simp only [median, hs]
      rw [if_neg (by decide)]
      norm_num [List.getD]
    have hml : medianOfObs [some 30] = some (median [30]) := by
      simp [medianOfObs]
    simp only [deriveEdges, hc, aggregateEdges, List.foldl_cons,
      List.foldl_nil, hsplit, hml, Option.map_some', hmed]
    norm_num [List.getD]

theorem C8_overnight_correction_witness :
    (-86370 : Int) < 0 ∧ adjustTravelTime (-86370) = -86370 + 86400 :=
  ⟨by decide, C8_overnight_correction.2.2.2.1 (-86370) (by decide)⟩

theorem C6_edge_travel_time_bounds_witness :
    (∀ row ∈ ([⟨"t1", "A", "23:59:50", "23:59:50", "1"⟩,
        ⟨"t1", "B", "00:00:20", "00:00:20", "2"⟩] : List StopTimeRow),
      (timeToSeconds row.arrivalTime).isSome ∧
      (timeToSeconds row.departureTime).isSome) ∧
    (∀ e ∈ deriveEdges [] [("t1", "r1")]
        [⟨"t1", "A", "23:59:50", "23:59:50", "1"⟩,
         ⟨"t1", "B", "00:00:20", "00:00:20", "2"⟩],
      ∃ v, e.travelTimeSec = some v ∧ 0 ≤ v ∧ v ≤ 3600) :=
  ⟨by decide, C6_edge_travel_time_bounds.1 [] [("t1", "r1")]
    [⟨"t1", "A", "23:59:50", "23:59:50", "1"⟩,
     ⟨"t1", "B", "00:00:20", "00:00:20", "2"⟩] (by decide)⟩

/-! ## C4: feed ingestion error behaviour

The feed directory is modelled as a partial map from file name to
content.  `fs.readFileSync` throws on a missing file — the only failure
path of the reading and header-resolution section of `preprocessGTFS`
(its lines 60–96): header lookup is `indexOf`, which returns -1 for an
absent column and never fails. -/

inductive FeedError where
  | readError (path : String)
deriving DecidableEq

/-- `fs.readFileSync`: the file's content, or a thrown read error when
the file is missing (caught in `main`, which aborts with exit code 1). -/
def readFileSyncM (files : String → Option String) (path : String) :
    Except FeedError String :=
  match files path with
  | some content => .ok content
  | none => .error (.readError path)

/-- JS `Array.indexOf`: first index of the name, -1 when absent. -/
def jsIndexOf (l : List String) (s : String) : Int :=
  match l.findIdx? (· == s) with
  | some i => (i : Int)
  | none => -1

/-- The fifteen header indices resolved by `preprocessGTFS`. -/
structure FeedHeaderIdx where
  stopIdIdx : Int
  stopNameIdx : Int
  stopLatIdx : Int
  stopLonIdx : Int
  locationTypeIdx : Int
  parentStationIdx : Int
  tripIdIdx : Int
  stopTimesStopIdIdx : Int
  arrivalTimeIdx : Int
  departureTimeIdx : Int
  stopSequenceIdx : Int
  tripsTripIdIdx : Int
  routeIdIdx : Int
  routeIdRoutesIdx : Int
  routeShortNameIdx : Int
deriving DecidableEq

/-- Header resolution of `preprocessGTFS`: `indexOf` on each table's
first row.  Total — an absent column yields -1, not an error. -/
def resolveHeaders (stops stopTimes trips routes : List (List String)) :
    FeedHeaderIdx :=
  let stopsHeader := stops.getD 0 []
  let stopTimesHeader := stopTimes.getD 0 []
  let tripsHeader := trips.getD 0 []
  let routesHeader := routes.getD 0 []
  { stopIdIdx := jsIndexOf stopsHeader "stop_id"
    stopNameIdx := jsIndexOf stopsHeader "stop_name"
    stopLatIdx := jsIndexOf stopsHeader "stop_lat"
    stopLonIdx := jsIndexOf stopsHeader "stop_lon"
    locationTypeIdx := jsIndexOf stopsHeader "location_type"
    parentStationIdx := jsIndexOf stopsHeader "parent_station"
    tripIdIdx := jsIndexOf stopTimesHeader "trip_id"
    stopTimesStopIdIdx := jsIndexOf stopTimesHeader "stop_id"
    arrivalTimeIdx := jsIndexOf stopTimesHeader "arrival_time"
    departureTimeIdx := jsIndexOf stopTimesHeader "departure_time"
    stopSequenceIdx := jsIndexOf stopTimesHeader "stop_sequence"
    tripsTripIdIdx := jsIndexOf tripsHeader "trip_id"
    routeIdIdx := jsIndexOf tripsHeader "route_id"
    routeIdRoutesIdx := jsIndexOf routesHeader "route_id"
    routeShortNameIdx := jsIndexOf routesHeader "route_short_name" }

/-- The reading and header-resolution section of `preprocessGTFS`: read
the four required tables (the only failure points) and resolve all
header indices. -/
def loadGTFSHeaders (files : String → Option String) :
    Except FeedError FeedHeaderIdx := do
  let stops ← readFileSyncM files "stops.txt"
  let stopTimes ← readFileSyncM files "stop_times.txt"
  let trips ← readFileSyncM files "trips.txt"
  let routes ← readFileSyncM files "routes.txt"
  pure (resolveHeaders (parseCSV stops) (parseCSV stopTimes)
    (parseCSV trips) (parseCSV routes))

/-- A feed directory whose routes table lacks the required
`route_short_name` column. -/
def sampleFeedFiles : String → Option String := fun path =>
  if path = "stops.txt" then
    some "stop_id,stop_name,stop_lat,stop_lon,location_type,parent_station\nS1,Alpha,40.0,-73.9,1,"
  else if path = "stop_times.txt" then
    some "trip_id,stop_id,arrival_time,departure_time,stop_sequence\nt1,S1,00:00:00,00:00:00,1"
  else if path = "trips.txt" then
    some "trip_id,route_id\nt1,r1"
  else if path = "routes.txt" then
    some "route_id\nr1"
  else none

/-- C4 counterexample: a feed with all four files present but whose
routes table lacks the required `route_short_name` column is ingested
WITHOUT any error — no `FeedFormatError` exists in the code; the header
index silently resolves to -1 and the run continues. -/
theorem C4_missing_column_counterexample :
    loadGTFSHeaders sampleFeedFiles =
      .ok ⟨0, 1, 2, 3, 4, 5, 0, 1, 2, 3, 4, 0, 1, 0, -1⟩ := by rfl

/-- C4 amended: ingestion fails — with the file-read error of the first
missing file, which aborts the run — exactly when a required feed file is
missing; a missing required column header is never detected: with all
four files present, ingestion succeeds unconditionally and an absent
column's header index is -1. -/
theorem C4_feed_error_behaviour :
    (∀ files : String → Option String,
      (files "stops.txt" = none ∨ files "stop_times.txt" = none ∨
        files "trips.txt" = none ∨ files "routes.txt" = none) →
      ∃ path, loadGTFSHeaders files = .error (.readError path) ∧
        files path = none) ∧
    (∀ files : String → Option String,
      (files "stops.txt").isSome → (files "stop_times.txt").isSome →
      (files "trips.txt").isSome → (files "routes.txt").isSome →
      ∃ hdrs, loadGTFSHeaders files = .ok hdrs) := by
  constructor
  · intro files hmiss
    rcases h1 : files "stops.txt" with _ | c1
    · refine ⟨"stops.txt", ?_, h1⟩
      simp only [loadGTFSHeaders, readFileSyncM, h1]
      rfl
    · rcases h2 : files "stop_times.txt" with _ | c2
      · refine ⟨"stop_times.txt", ?_, h2⟩
        simp only [loadGTFSHeaders, readFileSyncM, h1, h2]
        rfl
      · rcases h3 : files "trips.txt" with _ | c3
        · refine ⟨"trips.txt", ?_, h3⟩
          simp only [loadGTFSHeaders, readFileSyncM, h1, h2, h3]
          rfl
        · rcases h4 : files "routes.txt" with _ | c4
          · refine ⟨"routes.txt", ?_, h4⟩
            simp only [loadGTFSHeaders, readFileSyncM, h1, h2, h3, h4]
            rfl
          · exfalso
            rcases hmiss with h | h | h | h
            · rw [h1] at h; cases h
            · rw [h2] at h; cases h
            · rw [h3] at h; cases h
            · rw [h4] at h; cases h
  · intro files hs1 hs2 hs3 hs4
    obtain ⟨c1, h1⟩ := Option.isSome_iff_exists.mp hs1
    obtain ⟨c2, h2⟩ := Option.isSome_iff_exists.mp hs2
    obtain ⟨c3, h3⟩ := Option.isSome_iff_exists.mp hs3
    obtain ⟨c4, h4⟩ := Option.isSome_iff_exists.mp hs4
    refine ⟨resolveHeaders (parseCSV c1) (parseCSV c2) (parseCSV c3)
      (parseCSV c4), ?_⟩
    simp only [loadGTFSHeaders, readFileSyncM, h1, h2, h3, h4]
    rfl

theorem C4_feed_error_behaviour_witness :
    (∃ path, loadGTFSHeaders (fun _ => none) =
        .error (.readError path) ∧
      (fun _ : String => (none : Option String)) path = none) ∧
    (∃ hdrs, loadGTFSHeaders sampleFeedFiles = .ok hdrs) :=
  ⟨C4_feed_error_behaviour.1 (fun _ => none) (Or.inl rfl),
    C4_feed_error_behaviour.2 sampleFeedFiles (by decide) (by decide)
      (by decide) (by decide)⟩

end NYC


